import Mathlib

/-!
# cat-clone: the line transformer `output_append_with_flags` of `src/main.c`

Shallow embedding of the growable output buffer, of the routine that appends
one source to it, of the two source readers and of `main`, followed by the
properties proved about them.

Modelling conventions

* Bytes are natural numbers (`'\n'` is 10, `'\t'` is 9, `'$'` is 36, the
  terminator is 0).
* `size_t` values are natural numbers; every `size_t` addition, multiplication
  and subtraction of the source is reduced modulo `2 ^ 64` by `wrap`.
* A source handed to the transformer is the list of bytes that precede its
  terminator; reading at or past the end of that list reads the terminator.
  The pointer `data` is an offset into the source.  Offsets into the source
  are not reduced modulo `2 ^ 64`: the source is an object in memory.
* The storage of a buffer is the list of the bytes of its allocation.  A
  write that falls outside the allocation changes nothing in the model; every
  write is recorded, with the capacity in force, in a log returned together
  with the buffer, so that bounds can be checked afterwards.
* `realloc` is assumed to succeed; the bytes it adds are indeterminate and are
  modelled by the filler byte `0xAA`.
* `exit(EXIT_FAILURE)` and undefined pointer arithmetic are results of type
  `Fault`.
* Command-line arguments and file paths are lists of bytes without NUL.  The
  outside of the program is a `World`: the bytes still to come on standard
  input, the files that can be opened with their content, and the list of the
  sources read so far.  Files do not change while they are read and `malloc`
  succeeds.
* `char` is signed, as on x86-64: the byte `0xFF` stored in a `char` compares
  equal to `EOF`.
-/

namespace CatClone

/-! ## Machine words -/

/-- The largest value of `size_t`. -/
def SIZE_MAX : Nat := 2 ^ 64 - 1

/-- The macro `BUFFER_MAX_CAPACITY` of the source. -/
def BUFFER_MAX_CAPACITY : Nat := SIZE_MAX

/-- Reduction of an arithmetic result to `size_t`. -/
def wrap (n : Nat) : Nat := n % (SIZE_MAX + 1)

/-! ## Data model -/

def NUMBER_LINES : Nat := 1
def NUMBER_NONBLANK_LINES : Nat := 2
def SQUEEZE_BLANK_LINES : Nat := 1
def SHOW_ENDS : Nat := 1

/-- The bit-field record `Flags`. -/
structure Flags where
  number : Nat
  squeeze_blank : Nat
  show_ends : Nat
  deriving DecidableEq

/-- The record `Buffer`; `data` holds the bytes of the allocation. -/
structure Buffer where
  capacity : Nat
  length : Nat
  line_count : Nat
  data : List Nat
  deriving DecidableEq

/-- Ways in which a run ends without returning. -/
inductive Fault where
  /-- Message "buffer max capacity reached" of `buffer_grow`. -/
  | capacity_exceeded
  /-- The call `strchr(data, '\n')` returned `NULL` and the source goes on to
  compute `line_end - data + 1` from it. -/
  | null_line_end
  /-- The loop budget of the model ran out. -/
  | out_of_fuel
  /-- Message "invalid flag" of `flag_set`. -/
  | invalid_flag
  /-- The call `usage_print()` of `output_append_stdin`. -/
  | usage
  /-- Message "reading file" of `output_append_file`: `fopen` returned `NULL`. -/
  | file_open
  deriving DecidableEq

/-- One write into the storage of a buffer: `len` bytes from offset `off`,
made while the capacity was `cap`. -/
structure Write where
  off : Nat
  len : Nat
  cap : Nat
  deriving DecidableEq

/-- A write stays inside the allocation. -/
def Write.inBounds (w : Write) : Prop := w.off + w.len ≤ w.cap

instance (w : Write) : Decidable w.inBounds := by
  unfold Write.inBounds; infer_instance

deriving instance DecidableEq for Except

/-! ## Memory primitives -/

/-- Filler for bytes whose value the C standard leaves indeterminate. -/
def FILLER : Nat := 0xAA

/-- Model of `realloc(data, capacity)`: the first bytes are kept, the
allocation is cut or extended to `capacity` bytes. -/
def realloc (data : List Nat) (capacity : Nat) : List Nat :=
  (data ++ List.replicate (capacity - data.length) FILLER).take capacity

/-- Stores `bytes` at consecutive offsets from `off`; a store outside the
list changes nothing. -/
def store : List Nat → Nat → List Nat → List Nat
  | mem, _, [] => mem
  | mem, off, b :: bs => store (mem.set off b) (off + 1) bs

/-- Model of the conversion `%zu`: decimal digits, no sign, no padding. -/
def decimal (n : Nat) : List Nat := (Nat.toDigits 10 n).map Char.toNat

/-- Model of `strchr(data, c)` for `c ≠ 0`: the offset of the first `c` before
the terminator, `none` for `NULL`. -/
def strchr : List Nat → Nat → Option Nat
  | [], _ => none
  | b :: bs, c =>
    if b = c then some 0
    else if b = 0 then none
    else (strchr bs c).map (· + 1)

/-- The inner loop `while (*data == '\n') data = data + 1;`: `mem` is the
source from the position `data` on, the result is the position reached. -/
def skip_newlines : List Nat → Nat → Nat
  | b :: bs, data => if b = 10 then skip_newlines bs (data + 1) else data
  | [], data => data

/-! ## Operations -/

/-- The function `buffer_grow`. -/
def buffer_grow (buf : Buffer) (capacity : Nat) : Except Fault Buffer :=
  if capacity > BUFFER_MAX_CAPACITY then .error .capacity_exceeded
  else .ok { buf with data := realloc buf.data capacity, capacity := capacity }

/-- A buffer together with the log of the writes made into it. -/
abbrev Logged := Buffer × List Write

/-- Writes `bytes` at offset `off` of the storage and logs the write. -/
def poke (st : Logged) (off : Nat) (bytes : List Nat) : Logged :=
  ({ st.1 with data := store st.1.data off bytes },
   st.2 ++ [⟨off, bytes.length, st.1.capacity⟩])

/-- The statement `if (out->capacity < out->length + need) buffer_grow(out,
capacity);` found three times in `output_append_with_flags`. -/
def grow_if_short (st : Logged) (need capacity : Nat) : Except Fault Logged :=
  if st.1.capacity < wrap (st.1.length + need) then
    match buffer_grow st.1 capacity with
    | .error e => .error e
    | .ok b => .ok (b, st.2)
  else .ok st

/-- Lines 180-193: the number prefix. -/
def append_number (flags : Flags) (st : Logged) (line_len : Nat) : Except Fault Logged :=
  if flags.number = NUMBER_LINES ∨
      (flags.number = NUMBER_NONBLANK_LINES ∧ line_len > 1) then do
    let line_count_str := decimal (wrap (st.1.line_count + 1)) ++ [9]
    let line_count_str_len := line_count_str.length
    let st ← grow_if_short st line_count_str_len
      (wrap (st.1.capacity * 2 + line_count_str_len + 1))
    let st := poke st st.1.length (line_count_str ++ [0])
    pure ({ st.1 with length := wrap (st.1.length + line_count_str_len),
                      line_count := wrap (st.1.line_count + 1) }, st.2)
  else pure st

/-- Lines 195-200: the copy of the line. -/
def append_copy (st : Logged) (data : List Nat) (line_len : Nat) : Except Fault Logged := do
  let st ← grow_if_short st line_len (wrap (st.1.capacity * 2 + line_len + 1))
  let st := poke st st.1.length ((data ++ [0]).take line_len)
  pure ({ st.1 with length := wrap (st.1.length + line_len) }, st.2)

/-- Lines 202-209: the end marker. -/
def append_end (flags : Flags) (st : Logged) : Except Fault Logged :=
  if flags.show_ends = 1 then do
    let st ← grow_if_short st 1 (wrap (st.1.capacity * 2 + 1))
    let st := poke st (wrap (st.1.length + SIZE_MAX)) [36]
    let st := poke st st.1.length [10]
    pure ({ st.1 with length := wrap (st.1.length + 1) }, st.2)
  else pure st

/-- Lines 180-209: what one iteration does once `data` and `line_len` are
known; `data` is the source from the start of the line on. -/
def append_line (flags : Flags) (st : Logged) (data : List Nat) (line_len : Nat) :
    Except Fault Logged := do
  let st ← append_number flags st line_len
  let st ← append_copy st data line_len
  append_end flags st

/-- Lines 169-174: with squeezing enabled and a newline at the current
position, advance past every consecutive newline and back up by one. -/
def squeeze_step (flags : Flags) (src : List Nat) (data : Nat) : Nat :=
  if flags.squeeze_blank = SQUEEZE_BLANK_LINES ∧ src.getD data 0 = 10 then
    skip_newlines (src.drop data) data - 1
  else data

/-- Lines 169-211: the body of the outer loop; returns the new position and
the new output state.  `line_end` is kept as an offset from `data`, so that
`line_end - data + 1` of the source reads `line_end + 1`. -/
def scan_body (flags : Flags) (src : List Nat) (data : Nat) (st : Logged) :
    Except Fault (Nat × Logged) :=
  let data := squeeze_step flags src data
  match strchr (src.drop data) 10 with
  | none => .error .null_line_end
  | some line_end =>
    let line_len := line_end + 1
    match append_line flags st (src.drop data) line_len with
    | .error e => .error e
    | .ok st => .ok (data + line_len, st)

/-- The outer loop `while (*data != 0)` of `output_append_with_flags`.  `src`
is the source, `data` the current position in it; the first argument bounds
the number of iterations. -/
def scan (flags : Flags) (src : List Nat) : Nat → Nat → Logged → Except Fault Logged
  | 0, data, st => if src.getD data 0 = 0 then .ok st else .error .out_of_fuel
  | fuel + 1, data, st =>
    if src.getD data 0 = 0 then .ok st
    else
      match scan_body flags src data st with
      | .error e => .error e
      | .ok (data, st) => scan flags src fuel data st

/-- The function `output_append_with_flags`.  Every iteration consumes at
least one byte of the source, so `data.length` iterations are enough. -/
def output_append_with_flags (out : Buffer) (flags : Flags) (data : List Nat) :
    Except Fault Logged :=
  match scan flags data data.length 0 (out, []) with
  | .error e => .error e
  | .ok st => .ok (poke st st.1.length [0])

/-- The output text: the first `length` bytes of the storage. -/
def Buffer.text (b : Buffer) : List Nat := b.data.take b.length

/-- The storage has `capacity` bytes and the text fits in it. -/
def Buffer.WF (b : Buffer) : Prop := b.data.length = b.capacity ∧ b.length ≤ b.capacity

instance (b : Buffer) : Decidable b.WF := by
  unfold Buffer.WF; infer_instance

/-- The state `st2` comes from `st1` by appending `bytes` to the output text:
the storage stays well formed and the capacity does not shrink. -/
structure Extends (st1 st2 : Logged) (bytes : List Nat) : Prop where
  wf : st2.1.WF
  text : st2.1.text = st1.1.text ++ bytes
  length : st2.1.length = st1.1.length + bytes.length
  cap : st1.1.capacity ≤ st2.1.capacity

/-! ## Vocabulary of the specification

The definitions below follow the wording of the specification, not the
source: they say what a line is, which lines squeezing keeps and how a line is
rendered. -/

/-- The lines of a source: a line is the span up to and including the next
newline; a trailing fragment without a newline is a last line. -/
def splitLines : List Nat → List (List Nat)
  | [] => []
  | b :: bs =>
    if b = 10 then [10] :: splitLines bs
    else
      match splitLines bs with
      | [] => [[b]]
      | l :: ls => (b :: l) :: ls

/-- The source has no NUL byte. -/
def NulFree (s : List Nat) : Prop := 0 ∉ s

instance (s : List Nat) : Decidable (NulFree s) := by
  unfold NulFree; infer_instance

/-- Every line of the source ends with a newline. -/
def NewlineTerminated (s : List Nat) : Prop := ∀ l ∈ splitLines s, l.getLast? = some 10

instance (s : List Nat) : Decidable (NewlineTerminated s) := by
  unfold NewlineTerminated; infer_instance

/-- A line of a well-formed source: a content without newline or NUL, then
the newline. -/
def IsLine (l : List Nat) : Prop := ∃ c, l = c ++ [10] ∧ 10 ∉ c ∧ 0 ∉ c

/-- A blank line: a bare newline. -/
def blank (l : List Nat) : Bool := l = [10]

/-- Squeezing: a blank line directly followed by another blank line is
dropped, so a run of blank lines collapses to one. -/
def squeezeLines : List (List Nat) → List (List Nat)
  | [] => []
  | l :: ls =>
    if blank l ∧ ls.head? = some [10] then squeezeLines ls else l :: squeezeLines ls

/-- Squeezing applied when it is enabled. -/
def squeezed (flags : Flags) (ls : List (List Nat)) : List (List Nat) :=
  if flags.squeeze_blank = 1 then squeezeLines ls else ls

/-- The lines of a source that remain after squeezing, when it is enabled. -/
def keptLines (flags : Flags) (s : List Nat) : List (List Nat) :=
  squeezed flags (splitLines s)

/-- The numbering predicate: every line for "all", the lines longer than a
bare newline for "non-blank". -/
def numbered (flags : Flags) (l : List Nat) : Bool :=
  flags.number = 1 || (flags.number = 2 && decide (l.length > 1))

/-- One rendered line when `c` lines have been numbered before it: the number
`c + 1` and a tab if the line is numbered, the content, `$` if end-marking is
enabled, the newline. -/
def renderLine (flags : Flags) (c : Nat) (l : List Nat) : List Nat :=
  (if numbered flags l then decimal (c + 1) ++ [9] else []) ++ l.dropLast ++
    (if flags.show_ends = 1 then [36] else []) ++ [10]

/-- The rendering of a list of lines, the counter running from `c`. -/
def render (flags : Flags) : Nat → List (List Nat) → List Nat
  | _, [] => []
  | c, l :: ls =>
    renderLine flags c l ++ render flags (if numbered flags l then c + 1 else c) ls

/-- How many of the lines satisfy the numbering predicate. -/
def numberedCount (flags : Flags) (ls : List (List Nat)) : Nat :=
  (ls.filter (numbered flags)).length

/-- No `size_t` computation of the append wraps: three times the final length
of the text (a bound on every capacity the append asks for) and the final
value of the counter are below `2 ^ 64`. -/
def NoWrap (out : Buffer) (flags : Flags) (s : List Nat) : Prop :=
  3 * (out.length + (render flags out.line_count (keptLines flags s)).length) < 2 ^ 64 ∧
    out.line_count + numberedCount flags (keptLines flags s) < 2 ^ 64

instance (out : Buffer) (flags : Flags) (s : List Nat) : Decidable (NoWrap out flags s) := by
  unfold NoWrap; infer_instance


/-- A stretch of a source: one non-blank line, given by its content, or a
maximal run of `k` consecutive blank lines. -/
inductive Stretch where
  | line (content : List Nat)
  | blanks (k : Nat)
  deriving DecidableEq

/-- The bytes of a stretch in the source. -/
def Stretch.source : Stretch → List Nat
  | .line c => c ++ [10]
  | .blanks k => List.replicate k 10

/-- The bytes of a stretch once squeezed: a run becomes one blank line. -/
def Stretch.squeezedText : Stretch → List Nat
  | .line c => c ++ [10]
  | .blanks _ => [10]

/-- The stretch begins a run of blank lines. -/
def Stretch.isBlanks : Stretch → Bool
  | .line _ => false
  | .blanks _ => true

/-- A list of stretches is the decomposition of a source: contents are not
empty and hold neither newline nor NUL, runs have at least one line and are
maximal, that is no run follows another directly. -/
def StretchesOk : List Stretch → Prop
  | [] => True
  | .line c :: rest => c ≠ [] ∧ 10 ∉ c ∧ 0 ∉ c ∧ StretchesOk rest
  | .blanks k :: rest => 1 ≤ k ∧ (rest.head?.map Stretch.isBlanks) ≠ some true ∧ StretchesOk rest

/-- The stretches of a list of lines. -/
def stretches : List (List Nat) → List Stretch
  | [] => []
  | l :: ls =>
    if l = [10] then
      match stretches ls with
      | .blanks k :: rest => .blanks (k + 1) :: rest
      | rest => .blanks 1 :: rest
    else .line l.dropLast :: stretches ls

/-- Numbering of the non-blank lines only, `c` of them numbered so far: a
blank line is copied as it is and leaves the counter alone, a non-blank line
gets the next number and a tab in front. -/
def numberNonblank : Nat → List (List Nat) → List Nat
  | _, [] => []
  | c, l :: ls =>
    if l = [10] then l ++ numberNonblank c ls
    else decimal (c + 1) ++ [9] ++ l ++ numberNonblank (c + 1) ls

/-! ## The source readers and `main` -/

/-- An input source: standard input or a named file. -/
inductive Source where
  | stdin
  | file (path : List Nat)
  deriving DecidableEq

/-- What the program sees of its environment. -/
structure World where
  stdin : List Nat
  files : List (List Nat × List Nat)
  reads : List Source
  deriving DecidableEq

/-- The bytes of the C string that starts a block of memory: those before the
first NUL. -/
def c_string (mem : List Nat) : List Nat := mem.takeWhile (fun b => b ≠ 0)

/-- The function `flag_set`; `strcmp(flag_str, "-n") == 0` is equality with
the bytes of `-n`. -/
def flag_set (flags : Flags) (flag_str : List Nat) : Except Fault Flags :=
  if flag_str = [45, 110] then .ok { flags with number := NUMBER_LINES }
  else if flag_str = [45, 98] then .ok { flags with number := NUMBER_NONBLANK_LINES }
  else if flag_str = [45, 69] then .ok { flags with show_ends := SHOW_ENDS }
  else if flag_str = [45, 115] then .ok { flags with squeeze_blank := SQUEEZE_BLANK_LINES }
  else .error .invalid_flag

/-- Lines 44-50 of `main`: the loop that sets the flags and counts the flag
arguments; `*argv[i]` of an empty argument is its terminator. -/
def parse_flags : Flags → Nat → List (List Nat) → Except Fault (Flags × Nat)
  | flags, flag_count, [] => .ok (flags, flag_count)
  | flags, flag_count, arg :: rest =>
    if arg.length ≠ 1 ∧ arg.headD 0 = 45 then
      match flag_set flags arg with
      | .error e => .error e
      | .ok flags => parse_flags flags (flag_count + 1) rest
    else parse_flags flags flag_count rest

/-- Lines 120-122: `if (data.length == data.capacity) buffer_grow(&data,
data.capacity * 2 + 1);`. -/
def grow_if_full (data : Logged) : Except Fault Logged :=
  if data.1.length = data.1.capacity then
    match buffer_grow data.1 (wrap (data.1.capacity * 2 + 1)) with
    | .error e => .error e
    | .ok b => .ok (b, data.2)
  else .ok data

/-- Lines 119-126: the loop `while ((c = fgetc(stdin)) != EOF)` over the bytes
still to come; returns the bytes left on the stream and the reader buffer.
The byte `0xFF`, once stored in the `char c`, compares equal to `EOF`. -/
def stdin_loop : List Nat → Logged → List Nat × Except Fault Logged
  | [], data => ([], .ok data)
  | c :: rest, data =>
    if c = 255 then (rest, .ok data)
    else
      match grow_if_full data with
      | .error e => (rest, .error e)
      | .ok data =>
        let data := poke data data.1.length [c]
        stdin_loop rest ({ data.1 with length := wrap (data.1.length + 1) }, data.2)

/-- Lines 116-132 of `output_append_stdin`: standard input is read into a
fresh buffer, which is then terminated. -/
def read_stdin (w : World) : World × Except Fault Logged :=
  let w := { w with reads := w.reads ++ [Source.stdin] }
  match buffer_grow ⟨0, 0, 0, []⟩ 256 with
  | .error e => (w, .error e)
  | .ok data =>
    match stdin_loop w.stdin (data, []) with
    | (rest, .error e) => ({ w with stdin := rest }, .error e)
    | (rest, .ok data) =>
      if data.1.length = 0 then ({ w with stdin := rest }, .error .usage)
      else ({ w with stdin := rest }, .ok (poke data data.1.length [0]))

/-- The function `output_append_stdin`. -/
def output_append_stdin (w : World) (out : Buffer) (flags : Flags) :
    World × Except Fault Logged :=
  match read_stdin w with
  | (w, .error e) => (w, .error e)
  | (w, .ok data) => (w, output_append_with_flags out flags (c_string data.1.data))

/-- The function `output_append_file`. -/
def output_append_file (w : World) (out : Buffer) (flags : Flags) (file_path : List Nat) :
    World × Except Fault Logged :=
  let w := { w with reads := w.reads ++ [Source.file file_path] }
  match w.files.lookup file_path with
  | none => (w, .error .file_open)
  | some content =>
    let length := content.length
    if length = 0 then (w, .ok (poke (out, []) out.length [0]))
    else (w, output_append_with_flags out flags (c_string (content ++ [0])))

/-- Lines 55-65 of `main`: the loop over the arguments that reads the
sources. -/
def read_args (flags : Flags) : List (List Nat) → World → Buffer → World × Except Fault Buffer
  | [], w, out => (w, .ok out)
  | arg :: rest, w, out =>
    if arg.headD 0 = 45 then
      if arg.length = 1 then
        match output_append_stdin w out flags with
        | (w, .error e) => (w, .error e)
        | (w, .ok st) => read_args flags rest w st.1
      else read_args flags rest w out
    else
      match output_append_file w out flags arg with
      | (w, .error e) => (w, .error e)
      | (w, .ok st) => read_args flags rest w st.1

/-- Lines 52-66 of `main`: standard input alone when every argument is a
flag, the loop over the arguments otherwise. -/
def read_sources (flags : Flags) (flag_count : Nat) (argv : List (List Nat)) (w : World)
    (out : Buffer) : World × Except Fault Buffer :=
  if flag_count = argv.length then
    match output_append_stdin w out flags with
    | (w, .error e) => (w, .error e)
    | (w, .ok st) => (w, .ok st.1)
  else read_args flags argv w out

/-- The function `main`; `argv` holds the arguments after the program name,
the result is what is printed on standard output. -/
def main (w : World) (argv : List (List Nat)) : World × Except Fault (List Nat) :=
  match buffer_grow ⟨0, 0, 0, []⟩ 256 with
  | .error e => (w, .error e)
  | .ok out =>
    match parse_flags ⟨0, 0, 0⟩ 0 argv with
    | .error e => (w, .error e)
    | .ok (flags, flag_count) =>
      match read_sources flags flag_count argv w out with
      | (w, .error e) => (w, .error e)
      | (w, .ok out) => (w, .ok (c_string out.data))

/-! ## Vocabulary of the specification: the command line -/

/-- The buffer `main` starts from: 256 bytes allocated, nothing written. -/
def initial_buffer : Buffer := ⟨256, 0, 0, List.replicate 256 FILLER⟩

/-- A flag token: an argument that begins with `-` and is not exactly `-`. -/
def isFlagToken (arg : List Nat) : Bool := arg.head? = some 45 && arg ≠ [45]

/-- The recognized flags `-n`, `-b`, `-s` and `-E`. -/
def recognized (arg : List Nat) : Bool :=
  arg = [45, 110] || arg = [45, 98] || arg = [45, 115] || arg = [45, 69]

/-- The source an argument that is not a flag token stands for: standard
input for a bare `-`, the file of that name otherwise. -/
def sourceOf (arg : List Nat) : Source := if arg = [45] then .stdin else .file arg

/-- A positional argument: one that is not a flag token. -/
def isPositional (arg : List Nat) : Bool := !isFlagToken arg

/-- The sources of a command line: standard input alone when no argument is
positional, otherwise the positional arguments, in order. -/
def plannedSources (argv : List (List Nat)) : List Source :=
  if argv.all isFlagToken then [.stdin]
  else (argv.filter isPositional).map sourceOf

/-- Reading one source onto the output buffer. -/
def read_source (flags : Flags) (w : World) (out : Buffer) : Source → World × Except Fault Logged
  | .stdin => output_append_stdin w out flags
  | .file file_path => output_append_file w out flags file_path

/-- Reading a list of sources in order onto the same output buffer, with one
configuration; the first failure ends the run. -/
def read_in_order (flags : Flags) : List Source → World → Buffer → World × Except Fault Buffer
  | [], w, out => (w, .ok out)
  | src :: rest, w, out =>
    match read_source flags w out src with
    | (w, .error e) => (w, .error e)
    | (w, .ok st) => read_in_order flags rest w st.1

/-- What `main` prints once the sources are read: the C string at the start of
the storage of the output buffer. -/
def printed (r : World × Except Fault Buffer) : World × Except Fault (List Nat) :=
  match r with
  | (w, .error e) => (w, .error e)
  | (w, .ok out) => (w, .ok (c_string out.data))

/-- The numbering mode a list of flags asks for: that of the last `-n` or
`-b`, none if neither occurs. -/
def numberingOf (tokens : List (List Nat)) : Nat :=
  match (tokens.filter (fun t => t = [45, 110] || t = [45, 98])).getLast? with
  | none => 0
  | some t => if t = [45, 110] then 1 else 2

/-- The configuration a list of flags asks for. -/
def configOf (tokens : List (List Nat)) : Flags :=
  ⟨numberingOf tokens, if [45, 115] ∈ tokens then 1 else 0, if [45, 69] ∈ tokens then 1 else 0⟩

/-! ## Vocabulary of the specification: growth, blank runs and the scan -/

/-- What a growth test of the transformer does to the capacity when `n` bytes
are about to be written and `capacity` is the size it asks for: if the old
capacity is below `length + n` the capacity becomes `capacity` and the `n`
bytes and a terminator fit, otherwise it stays; it never decreases. -/
def Grows (st st2 : Logged) (n capacity : Nat) : Prop :=
  (st.1.capacity < st.1.length + n →
    st2.1.capacity = capacity ∧ st.1.length + n + 1 ≤ st2.1.capacity) ∧
  (¬ st.1.capacity < st.1.length + n → st2.1.capacity = st.1.capacity) ∧
  st.1.capacity ≤ st2.1.capacity

/-- The text holds no run of two or more consecutive blank lines: it does not
start with two newlines and nowhere holds three consecutive newlines. -/
def NoBlankRun (t : List Nat) : Prop := ¬ [10, 10] <+: t ∧ ¬ [10, 10, 10] <:+: t

/-- The text of a source once squeezed. -/
def squeezedSource (s : List Nat) : List Nat := (squeezeLines (splitLines s)).flatten

/-- Appending sources one after another to the same output buffer, as `main`
does with the sources it reads. -/
def append_all (flags : Flags) : Buffer → List (List Nat) → Except Fault Buffer
  | out, [] => .ok out
  | out, s :: rest =>
    match output_append_with_flags out flags s with
    | .error e => .error e
    | .ok r => append_all flags r.1 rest

/-- The values `data` takes when the test of the outer loop of
`output_append_with_flags` is evaluated: the start of the source, and from a
position where the test passes the position reached at line 211, after the
squeeze step and the search for the newline. -/
inductive ScanPos (flags : Flags) (src : List Nat) : Nat → Prop
  | start : ScanPos flags src 0
  | step {data line_end : Nat} : ScanPos flags src data → src.getD data 0 ≠ 0 →
      strchr (src.drop (squeeze_step flags src data)) 10 = some line_end →
      ScanPos flags src (squeeze_step flags src data + (line_end + 1))

/-! ## Machine words: lemmas -/

theorem size_eq : SIZE_MAX + 1 = 2 ^ 64 := by decide

theorem wrap_of_lt {n : Nat} (h : n < 2 ^ 64) : wrap n = n := by
  unfold wrap; rw [size_eq]; exact Nat.mod_eq_of_lt h

theorem wrap_le (n : Nat) : wrap n ≤ BUFFER_MAX_CAPACITY := by
  have h : wrap n < SIZE_MAX + 1 := Nat.mod_lt _ (by decide)
  unfold BUFFER_MAX_CAPACITY; omega

theorem wrap_pred {n : Nat} (h1 : 1 ≤ n) (h2 : n < 2 ^ 64) : wrap (n + SIZE_MAX) = n - 1 := by
  unfold wrap
  have h : n + SIZE_MAX = (n - 1) + (SIZE_MAX + 1) := by omega
  rw [h, Nat.add_mod_right, size_eq]
  exact Nat.mod_eq_of_lt (by omega)

/-! ## Memory primitives: lemmas -/

theorem length_store (mem : List Nat) (off : Nat) (bs : List Nat) :
    (store mem off bs).length = mem.length := by
  induction bs generalizing mem off with
  | nil => rfl
  | cons b bs ih => simp [store, ih]

theorem take_store_of_le (mem : List Nat) (off : Nat) (bs : List Nat) (n : Nat) (h : n ≤ off) :
    (store mem off bs).take n = mem.take n := by
  induction bs generalizing mem off with
  | nil => rfl
  | cons b bs ih =>
    simp only [store]
    rw [ih _ _ (by omega)]
    rcases Nat.lt_or_ge off mem.length with hlt | hge
    · rw [List.set_eq_take_append_cons_drop, if_pos hlt, List.take_append_of_le_length]
      · rw [List.take_take, Nat.min_eq_left h]
      · rw [List.length_take]; omega
    · rw [List.set_eq_of_length_le hge]

theorem take_set_succ (mem : List Nat) (off b : Nat) (h : off < mem.length) :
    (mem.set off b).take (off + 1) = mem.take off ++ [b] := by
  rw [List.set_eq_take_append_cons_drop, if_pos h]
  have hl : (mem.take off).length = off := by rw [List.length_take]; omega
  have : off + 1 = (mem.take off).length + 1 := by rw [hl]
  rw [this, List.take_append]
  simp

theorem take_store (mem : List Nat) (off : Nat) (bs : List Nat)
    (h : off + bs.length ≤ mem.length) :
    (store mem off bs).take (off + bs.length) = mem.take off ++ bs := by
  induction bs generalizing mem off with
  | nil => simp [store]
  | cons b bs ih =>
    simp only [store, List.length_cons] at h ⊢
    have e : off + (bs.length + 1) = (off + 1) + bs.length := by omega
    rw [e, ih _ _ (by simp; omega), take_set_succ _ _ _ (by omega)]
    simp

theorem store_append (mem : List Nat) (off : Nat) (a b : List Nat) :
    store mem off (a ++ b) = store (store mem off a) (off + a.length) b := by
  induction a generalizing mem off with
  | nil => simp [store]
  | cons x a ih =>
    show store (mem.set off x) (off + 1) (a ++ b) = _
    rw [ih]
    simp only [store, List.length_cons]
    congr 1
    omega

theorem length_realloc (data : List Nat) (capacity : Nat) :
    (realloc data capacity).length = capacity := by
  unfold realloc
  simp
  omega

theorem take_realloc (data : List Nat) (capacity n : Nat) (h1 : n ≤ capacity)
    (h2 : n ≤ data.length) : (realloc data capacity).take n = data.take n := by
  unfold realloc
  rw [List.take_take, Nat.min_eq_left h1, List.take_append_of_le_length h2]

/-! ## The steps of one iteration -/

theorem Extends.refl (st : Logged) (h : st.1.WF) : Extends st st [] :=
  ⟨h, by simp, by simp, Nat.le_refl _⟩

theorem Extends.trans {st1 st2 st3 : Logged} {a b : List Nat}
    (h1 : Extends st1 st2 a) (h2 : Extends st2 st3 b) : Extends st1 st3 (a ++ b) :=
  ⟨h2.wf, by rw [h2.text, h1.text, List.append_assoc],
   by rw [h2.length, h1.length, List.length_append, Nat.add_assoc],
   Nat.le_trans h1.cap h2.cap⟩

theorem Extends.of_fields {st1 st2 st3 : Logged} {a : List Nat} (h : Extends st1 st2 a)
    (hd : st3.1.data = st2.1.data) (hl : st3.1.length = st2.1.length)
    (hc : st3.1.capacity = st2.1.capacity) : Extends st1 st3 a := by
  obtain ⟨⟨w1, w2⟩, t, l, c⟩ := h
  refine ⟨⟨by rw [hd, hc]; exact w1, by rw [hl, hc]; exact w2⟩, ?_, by rw [hl]; exact l,
    by rw [hc]; exact c⟩
  unfold Buffer.text at t ⊢
  rw [hd, hl]; exact t

theorem grow_if_short_ok (st : Logged) (need capacity : Nat) (hwf : st.1.WF)
    (hneed : st.1.length + need < 2 ^ 64)
    (hcap : st.1.capacity < st.1.length + need →
      st.1.length + need ≤ capacity ∧ capacity ≤ BUFFER_MAX_CAPACITY) :
    ∃ st2, grow_if_short st need capacity = .ok st2 ∧ Extends st st2 [] ∧
      st2.1.length + need ≤ st2.1.capacity ∧ st2.1.line_count = st.1.line_count := by
  unfold grow_if_short
  rw [wrap_of_lt hneed]
  by_cases hc : st.1.capacity < st.1.length + need
  · obtain ⟨h1, h2⟩ := hcap hc
    have hg : ¬ capacity > BUFFER_MAX_CAPACITY := by omega
    simp only [hc, if_true, buffer_grow, hg, if_false]
    refine ⟨_, rfl, ⟨⟨?_, ?_⟩, ?_, ?_, ?_⟩, ?_, rfl⟩
    · exact length_realloc _ _
    · show st.1.length ≤ capacity
      omega
    · show (realloc st.1.data capacity).take st.1.length = st.1.data.take st.1.length ++ []
      rw [take_realloc _ _ _ (by omega) (by rw [hwf.1]; exact hwf.2)]
      simp
    · simp
    · show st.1.capacity ≤ capacity
      omega
    · exact h1
  · simp only [hc, if_false]
    exact ⟨st, rfl, Extends.refl st hwf, by omega, rfl⟩

theorem poke_extends (st : Logged) (bytes extra : List Nat) (hwf : st.1.WF)
    (hfit : st.1.length + bytes.length ≤ st.1.capacity) :
    Extends st
      ({ (poke st st.1.length (bytes ++ extra)).1 with
          length := st.1.length + bytes.length }, (poke st st.1.length (bytes ++ extra)).2)
      bytes := by
  refine ⟨⟨?_, hfit⟩, ?_, rfl, Nat.le_refl _⟩
  · show (store st.1.data st.1.length (bytes ++ extra)).length = st.1.capacity
    rw [length_store]; exact hwf.1
  · show (store st.1.data st.1.length (bytes ++ extra)).take (st.1.length + bytes.length)
      = st.1.data.take st.1.length ++ bytes
    rw [store_append, take_store_of_le _ _ _ _ (Nat.le_refl _), take_store]
    rw [hwf.1]; exact hfit

theorem numbered_iff (flags : Flags) (l : List Nat) :
    (flags.number = NUMBER_LINES ∨ (flags.number = NUMBER_NONBLANK_LINES ∧ l.length > 1)) ↔
      numbered flags l = true := by
  simp [numbered, NUMBER_LINES, NUMBER_NONBLANK_LINES]

theorem append_number_ok (flags : Flags) (st : Logged) (l : List Nat) (hwf : st.1.WF)
    (hfit : numbered flags l = true →
      3 * (st.1.length + (decimal (st.1.line_count + 1) ++ [9]).length) < 2 ^ 64)
    (hcnt : numbered flags l = true → st.1.line_count + 1 < 2 ^ 64) :
    ∃ st2, append_number flags st l.length = .ok st2 ∧
      Extends st st2 (if numbered flags l then decimal (st.1.line_count + 1) ++ [9] else []) ∧
      st2.1.line_count = (if numbered flags l then st.1.line_count + 1 else st.1.line_count) := by
  unfold append_number
  by_cases hn : numbered flags l = true
  · have hfit := hfit hn
    have hcnt := hcnt hn
    rw [if_pos ((numbered_iff flags l).2 hn), wrap_of_lt hcnt]
    simp only [hn, if_true]
    generalize hstr : decimal (st.1.line_count + 1) ++ [9] = str at hfit ⊢
    have hpos : 1 ≤ str.length := by rw [← hstr]; simp
    obtain ⟨st1, hg, hext, hroom, hlc⟩ := grow_if_short_ok st str.length
      (wrap (st.1.capacity * 2 + str.length + 1)) hwf (by omega) (by
        intro hc
        have := hwf.2
        rw [wrap_of_lt (by omega)]
        refine ⟨by omega, ?_⟩
        have := size_eq
        unfold BUFFER_MAX_CAPACITY; omega)
    simp only [bind, Except.bind, hg, pure, Except.pure]
    have hlen1 : st1.1.length = st.1.length := by simpa using hext.length
    refine ⟨_, rfl, ?_, ?_⟩
    · have h2 := poke_extends st1 str [0] hext.wf hroom
      have h3 := hext.trans h2
      rw [List.nil_append] at h3
      refine h3.of_fields rfl ?_ rfl
      show wrap (st1.1.length + str.length) = st1.1.length + str.length
      exact wrap_of_lt (by omega)
    · show wrap (st1.1.line_count + 1) = st.1.line_count + 1
      rw [hlc]; exact wrap_of_lt hcnt
  · rw [if_neg (fun h => hn ((numbered_iff flags l).1 h))]
    simp only [hn, if_false, Bool.false_eq_true]
    exact ⟨st, rfl, Extends.refl st hwf, rfl⟩

theorem append_copy_ok (st : Logged) (data : List Nat) (line_len : Nat) (hwf : st.1.WF)
    (hsrc : line_len ≤ data.length) (hfit : 3 * (st.1.length + line_len) < 2 ^ 64) :
    ∃ st2, append_copy st data line_len = .ok st2 ∧ Extends st st2 (data.take line_len) ∧
      st2.1.line_count = st.1.line_count := by
  unfold append_copy
  obtain ⟨st1, hg, hext, hroom, hlc⟩ := grow_if_short_ok st line_len
    (wrap (st.1.capacity * 2 + line_len + 1)) hwf (by omega) (by
      intro hc
      have := hwf.2
      rw [wrap_of_lt (by omega)]
      refine ⟨by omega, ?_⟩
      have := size_eq
      unfold BUFFER_MAX_CAPACITY; omega)
  simp only [bind, Except.bind, hg, pure, Except.pure]
  have hlen1 : st1.1.length = st.1.length := by simpa using hext.length
  have htake : (data ++ [0]).take line_len = data.take line_len :=
    List.take_append_of_le_length hsrc
  have hl : (data.take line_len).length = line_len := by
    rw [List.length_take]; omega
  refine ⟨_, rfl, ?_, hlc⟩
  have h2 := poke_extends st1 (data.take line_len) [] hext.wf (by rw [hl]; exact hroom)
  have h3 := hext.trans h2
  rw [List.nil_append] at h3
  refine h3.of_fields ?_ ?_ rfl
  · show store st1.1.data st1.1.length (List.take line_len (data ++ [0])) =
      store st1.1.data st1.1.length (List.take line_len data ++ [])
    rw [htake, List.append_nil]
  · show wrap (st1.1.length + line_len) = st1.1.length + (data.take line_len).length
    rw [hl]; exact wrap_of_lt (by omega)

theorem take_pred_eq_dropLast (mem : List Nat) (n : Nat) (h : n ≤ mem.length) :
    mem.take (n - 1) = (mem.take n).dropLast := by
  rw [List.dropLast_eq_take, List.take_take, List.length_take]
  congr 1
  omega

theorem append_end_ok (flags : Flags) (st : Logged) (hwf : st.1.WF) (hpos : 1 ≤ st.1.length)
    (hfit : flags.show_ends = 1 → 3 * (st.1.length + 1) < 2 ^ 64) :
    ∃ st2, append_end flags st = .ok st2 ∧ st2.1.WF ∧
      st2.1.text = (if flags.show_ends = 1 then st.1.text.dropLast ++ [36, 10] else st.1.text) ∧
      st2.1.length = st.1.length + (if flags.show_ends = 1 then 1 else 0) ∧
      st2.1.line_count = st.1.line_count ∧ st.1.capacity ≤ st2.1.capacity := by
  unfold append_end
  by_cases hs : flags.show_ends = 1
  · have hfit := hfit hs
    simp only [hs, if_true]
    obtain ⟨st1, hg, hext, hroom, hlc⟩ := grow_if_short_ok st 1
      (wrap (st.1.capacity * 2 + 1)) hwf (by omega) (by
        intro hc
        have := hwf.2
        rw [wrap_of_lt (by omega)]
        refine ⟨by omega, ?_⟩
        have := size_eq
        unfold BUFFER_MAX_CAPACITY; omega)
    simp only [bind, Except.bind, hg, pure, Except.pure]
    have hlen1 : st1.1.length = st.1.length := by simpa using hext.length
    have htext1 : st1.1.data.take st1.1.length = st.1.text := by simpa using hext.text
    have hd1 : st1.1.data.length = st1.1.capacity := hext.wf.1
    refine ⟨_, rfl, ⟨?_, ?_⟩, ?_, ?_, hlc, hext.cap⟩
    · show (store (store st1.1.data (wrap (st1.1.length + SIZE_MAX)) [36]) st1.1.length
        [10]).length = st1.1.capacity
      rw [length_store, length_store]; exact hd1
    · show wrap (st1.1.length + 1) ≤ st1.1.capacity
      rw [wrap_of_lt (by omega)]; exact hroom
    · show (store (store st1.1.data (wrap (st1.1.length + SIZE_MAX)) [36]) st1.1.length
        [10]).take (wrap (st1.1.length + 1)) = st.1.text.dropLast ++ [36, 10]
      rw [wrap_of_lt (by omega), wrap_pred (by omega) (by omega)]
      have e1 := take_store (store st1.1.data (st1.1.length - 1) [36]) st1.1.length [10]
        (by rw [length_store, hd1]; exact hroom)
      have e2 := take_store st1.1.data (st1.1.length - 1) [36]
        (by rw [hd1]; simp only [List.length_singleton]; omega)
      simp only [List.length_singleton] at e1 e2
      have e3 : st1.1.length - 1 + 1 = st1.1.length := by omega
      rw [e3] at e2
      rw [e1, e2, take_pred_eq_dropLast _ _ (by omega), htext1]
      simp
    · show wrap (st1.1.length + 1) = st.1.length + 1
      rw [wrap_of_lt (by omega), hlen1]
  · simp only [hs, if_false]
    exact ⟨st, rfl, hwf, rfl, rfl, rfl, Nat.le_refl _⟩

theorem length_renderLine (flags : Flags) (c : Nat) (l : List Nat) (hl : l ≠ []) :
    (renderLine flags c l).length =
      (if numbered flags l then (decimal (c + 1) ++ [9]).length else 0) + l.length +
        (if flags.show_ends = 1 then 1 else 0) := by
  unfold renderLine
  have : 1 ≤ l.length := List.length_pos.2 hl
  simp only [List.length_append, List.length_dropLast, List.length_singleton]
  split <;> split <;> simp <;> omega

theorem append_line_ok (flags : Flags) (st : Logged) (data c : List Nat) (hwf : st.1.WF)
    (hsrc : data.take (c ++ [10]).length = c ++ [10])
    (hfit : 3 * (st.1.length + (renderLine flags st.1.line_count (c ++ [10])).length) < 2 ^ 64)
    (hcnt : numbered flags (c ++ [10]) = true → st.1.line_count + 1 < 2 ^ 64) :
    ∃ st2, append_line flags st data (c ++ [10]).length = .ok st2 ∧
      Extends st st2 (renderLine flags st.1.line_count (c ++ [10])) ∧
      st2.1.line_count =
        (if numbered flags (c ++ [10]) then st.1.line_count + 1 else st.1.line_count) := by
  generalize hl : c ++ [10] = l at *
  have hne : l ≠ [] := by rw [← hl]; simp
  have hlen := length_renderLine flags st.1.line_count l hne
  have hpos : 1 ≤ l.length := List.length_pos.2 hne
  have hdl : l.length ≤ data.length := by
    have := congrArg List.length hsrc
    rw [List.length_take] at this
    omega
  unfold append_line
  obtain ⟨st1, h1, hx1, hc1⟩ := append_number_ok flags st l hwf
    (by intro hn; rw [hn] at hlen; simp only [if_true] at hlen; omega) hcnt
  have hlen1 := hx1.length
  have hnp : (if numbered flags l then decimal (st.1.line_count + 1) ++ [9] else []).length =
      (if numbered flags l then (decimal (st.1.line_count + 1) ++ [9]).length else 0) := by
    split <;> rfl
  rw [hnp] at hlen1
  generalize (if numbered flags l then (decimal (st.1.line_count + 1) ++ [9]).length else 0)
    = np at hlen hlen1
  clear hnp
  have hse : (if flags.show_ends = 1 then 1 else 0) ≤ 1 := by split <;> omega
  obtain ⟨st2, h2, hx2, hc2⟩ := append_copy_ok st1 data l.length hx1.wf hdl (by omega)
  have hlen2 := hx2.length
  rw [hsrc] at hx2 hlen2
  obtain ⟨st3, h3, hwf3, ht3, hl3, hc3, hcap3⟩ := append_end_ok flags st2 hx2.wf (by omega)
    (by intro hs; rw [if_pos hs] at hlen; omega)
  simp only [bind, Except.bind, h1, h2, h3]
  refine ⟨st3, rfl, ⟨hwf3, ?_, ?_, ?_⟩, by rw [hc3, hc2, hc1]⟩
  · rw [ht3, hx2.text, hx1.text]
    unfold renderLine
    rw [← hl]
    by_cases hs : flags.show_ends = 1 <;> simp [hs]
  · rw [hl3, hlen2, hlen1, hlen]
    omega
  · exact Nat.le_trans hx1.cap (Nat.le_trans hx2.cap hcap3)

/-! ## Scanning the source -/

theorem getD_append_length (pre rest : List Nat) :
    (pre ++ rest).getD pre.length 0 = rest.headD 0 := by
  rw [List.getD_eq_getElem?_getD, List.getElem?_append_right (Nat.le_refl _)]
  cases rest <;> simp

theorem strchr_line (c rest : List Nat) (h10 : 10 ∉ c) (h0 : 0 ∉ c) :
    strchr (c ++ [10] ++ rest) 10 = some c.length := by
  induction c with
  | nil => simp [strchr]
  | cons x c ih =>
    simp only [List.mem_cons, not_or] at h10 h0
    have hx : ¬ x = 10 := fun h => h10.1 h.symm
    have hz : ¬ x = 0 := fun h => h0.1 h.symm
    simp only [List.cons_append, strchr, hx, hz, if_false, List.append_eq]
    rw [ih h10.2 h0.2]
    simp

theorem skip_newlines_run (n : Nat) (rest : List Nat) (p : Nat) (h : rest.head? ≠ some 10) :
    skip_newlines (List.replicate n 10 ++ rest) p = p + n := by
  induction n generalizing p with
  | zero =>
    cases rest with
    | nil => simp [skip_newlines]
    | cons b bs =>
      have hb : ¬ b = 10 := by simpa using h
      simp [skip_newlines, hb]
  | succ n ih =>
    simp only [List.replicate_succ, List.cons_append, skip_newlines, if_true, List.append_eq]
    rw [ih]; omega

theorem blank_run (ls : List (List Nat)) :
    ∃ j ls2, ls = List.replicate j [10] ++ ls2 ∧ ls2.head? ≠ some [10] := by
  induction ls with
  | nil => exact ⟨0, [], rfl, by simp⟩
  | cons l ls ih =>
    by_cases hl : l = [10]
    · obtain ⟨j, ls2, h1, h2⟩ := ih
      exact ⟨j + 1, ls2, by rw [hl, h1, List.replicate_succ, List.cons_append], h2⟩
    · exact ⟨0, l :: ls, rfl, by simpa using hl⟩

theorem squeezeLines_run (j : Nat) (ls2 : List (List Nat)) (h : ls2.head? ≠ some [10]) :
    squeezeLines ([10] :: (List.replicate j [10] ++ ls2)) = [10] :: squeezeLines ls2 := by
  induction j with
  | zero => simp [squeezeLines, blank, h]
  | succ j ih =>
    rw [squeezeLines]
    simp only [blank, List.replicate_succ, List.cons_append, List.head?_cons, decide_True,
      and_self, if_true]
    exact ih

theorem squeezeLines_cons_of_not_blank (l : List Nat) (ls : List (List Nat)) (h : l ≠ [10]) :
    squeezeLines (l :: ls) = l :: squeezeLines ls := by
  simp [squeezeLines, blank, h]

theorem flatten_run (j : Nat) (ls2 : List (List Nat)) :
    (List.replicate j [10] ++ ls2).flatten = List.replicate j 10 ++ ls2.flatten := by
  induction j with
  | zero => simp
  | succ j ih => simp [List.replicate_succ, ih]

theorem head_flatten_ne (ls2 : List (List Nat)) (hl : ∀ l ∈ ls2, IsLine l)
    (h : ls2.head? ≠ some [10]) : ls2.flatten.head? ≠ some 10 := by
  cases ls2 with
  | nil => simp
  | cons l ls =>
    obtain ⟨c, rfl, h10, -⟩ := hl l (List.mem_cons_self _ _)
    cases c with
    | nil => simp at h
    | cons x c =>
      simp only [List.mem_cons, not_or] at h10
      simpa using fun e => h10.1 e.symm

theorem IsLine.head_ne_zero {l : List Nat} (h : IsLine l) (rest : List Nat) :
    (l ++ rest).headD 0 ≠ 0 := by
  obtain ⟨c, rfl, -, h0⟩ := h
  cases c with
  | nil => simp
  | cons x c =>
    simp only [List.mem_cons, not_or] at h0
    simpa using fun e => h0.1 e.symm

theorem IsLine.head_eq_newline {l : List Nat} (h : IsLine l) (rest : List Nat) :
    (l ++ rest).headD 0 = 10 ↔ l = [10] := by
  obtain ⟨c, rfl, h10, -⟩ := h
  cases c with
  | nil => simp
  | cons x c =>
    simp only [List.mem_cons, not_or] at h10
    simp only [List.cons_append, List.headD_cons, List.cons.injEq]
    constructor
    · intro e; exact absurd e.symm h10.1
    · intro e; exact absurd e.1.symm h10.1

theorem squeeze_step_ok (flags : Flags) (pre l : List Nat) (ls : List (List Nat))
    (hl : IsLine l) (hls : ∀ x ∈ ls, IsLine x) :
    ∃ pre2 ls2, pre ++ (l :: ls).flatten = pre2 ++ (l :: ls2).flatten ∧
      squeeze_step flags (pre ++ (l :: ls).flatten) pre.length = pre2.length ∧
      (∀ x ∈ ls2, IsLine x) ∧ squeezed flags (l :: ls) = l :: squeezed flags ls2 ∧
      ls2.flatten.length ≤ ls.flatten.length := by
  unfold squeeze_step
  rw [getD_append_length, List.flatten_cons, List.drop_left]
  have hhead := hl.head_eq_newline ls.flatten
  by_cases hq : flags.squeeze_blank = SQUEEZE_BLANK_LINES ∧ l = [10]
  · rw [if_pos ⟨hq.1, hhead.2 hq.2⟩]
    clear hhead
    obtain ⟨hs, rfl⟩ := hq
    obtain ⟨j, ls2, rfl, h2⟩ := blank_run ls
    have hls2 : ∀ x ∈ ls2, IsLine x := fun x hx => hls x (List.mem_append_right _ hx)
    refine ⟨pre ++ List.replicate j 10, ls2, ?_, ?_, hls2, ?_, ?_⟩
    · rw [flatten_run, List.flatten_cons]
      have : [10] ++ (List.replicate j 10 ++ ls2.flatten) =
          List.replicate j 10 ++ ([10] ++ ls2.flatten) := by
        rw [← List.append_assoc, ← List.append_assoc]
        congr 1
        show 10 :: List.replicate j 10 = List.replicate j 10 ++ [10]
        rw [← List.replicate_succ, List.replicate_succ']
      rw [this, List.append_assoc]
    · rw [flatten_run]
      have : [10] ++ (List.replicate j 10 ++ ls2.flatten) =
          List.replicate (j + 1) 10 ++ ls2.flatten := by
        rw [List.replicate_succ]; rfl
      rw [this, skip_newlines_run _ _ _ (head_flatten_ne ls2 hls2 h2)]
      simp
    · unfold squeezed
      have hs1 : flags.squeeze_blank = 1 := hs
      rw [if_pos hs1, if_pos hs1]
      exact squeezeLines_run j ls2 h2
    · rw [flatten_run]; simp
  · rw [if_neg (fun h => hq ⟨h.1, hhead.1 h.2⟩)]
    refine ⟨pre, ls, rfl, rfl, hls, ?_, Nat.le_refl _⟩
    unfold squeezed
    by_cases hs : flags.squeeze_blank = 1
    · rw [if_pos hs, if_pos hs]
      exact squeezeLines_cons_of_not_blank l ls (fun e => hq ⟨hs, e⟩)
    · rw [if_neg hs, if_neg hs]

theorem scan_body_ok (flags : Flags) (src pre1 l rest : List Nat) (data : Nat) (st : Logged)
    (hsrc : src = pre1 ++ (l ++ rest))
    (hstep : squeeze_step flags src data = pre1.length)
    (hl : IsLine l) (hwf : st.1.WF)
    (hfit : 3 * (st.1.length + (renderLine flags st.1.line_count l).length) < 2 ^ 64)
    (hcnt : numbered flags l = true → st.1.line_count + 1 < 2 ^ 64) :
    ∃ st2, scan_body flags src data st = .ok ((pre1 ++ l).length, st2) ∧
      Extends st st2 (renderLine flags st.1.line_count l) ∧
      st2.1.line_count = (if numbered flags l then st.1.line_count + 1 else st.1.line_count) := by
  obtain ⟨c, rfl, h10, h0⟩ := hl
  unfold scan_body
  simp only [hstep]
  rw [hsrc, List.drop_left, strchr_line c _ h10 h0]
  have hlen1 : c.length + 1 = (c ++ [10]).length := by simp
  simp only [hlen1]
  obtain ⟨st2, h2, hx2, hc2⟩ := append_line_ok flags st (c ++ [10] ++ rest) c hwf
    (by rw [List.take_left]) hfit hcnt
  rw [h2]
  exact ⟨st2, by simp, hx2, hc2⟩

theorem render_cons (flags : Flags) (c : Nat) (l : List Nat) (ls : List (List Nat)) :
    render flags c (l :: ls) =
      renderLine flags c l ++ render flags (if numbered flags l then c + 1 else c) ls := rfl

theorem numberedCount_cons (flags : Flags) (l : List Nat) (ls : List (List Nat)) :
    numberedCount flags (l :: ls) =
      (if numbered flags l then 1 else 0) + numberedCount flags ls := by
  unfold numberedCount
  rw [List.filter_cons]
  split
  · rw [List.length_cons]; omega
  · omega

theorem IsLine.length_pos {l : List Nat} (h : IsLine l) : 1 ≤ l.length := by
  obtain ⟨c, rfl, -, -⟩ := h
  simp

theorem scan_ok (flags : Flags) (fuel : Nat) :
    ∀ (pre : List Nat) (ls : List (List Nat)) (st : Logged),
      (∀ x ∈ ls, IsLine x) → ls.flatten.length ≤ fuel → st.1.WF →
      3 * (st.1.length + (render flags st.1.line_count (squeezed flags ls)).length) < 2 ^ 64 →
      (numberedCount flags (squeezed flags ls) ≠ 0 →
        st.1.line_count + numberedCount flags (squeezed flags ls) < 2 ^ 64) →
      ∃ st2, scan flags (pre ++ ls.flatten) fuel pre.length st = .ok st2 ∧
        Extends st st2 (render flags st.1.line_count (squeezed flags ls)) ∧
        st2.1.line_count = st.1.line_count + numberedCount flags (squeezed flags ls) := by
  induction fuel with
  | zero =>
    intro pre ls st hls hfuel hwf _ _
    cases ls with
    | nil =>
      refine ⟨st, ?_, ?_, ?_⟩
      · simp [scan]
      · have : squeezed flags [] = [] := by unfold squeezed; split <;> rfl
        rw [this]; exact Extends.refl st hwf
      · have : squeezed flags [] = [] := by unfold squeezed; split <;> rfl
        rw [this]; rfl
    | cons l ls =>
      have := (hls l (List.mem_cons_self _ _)).length_pos
      simp only [List.flatten_cons, List.length_append] at hfuel
      omega
  | succ fuel ih =>
    intro pre ls st hls hfuel hwf hfit hcnt
    cases ls with
    | nil =>
      refine ⟨st, ?_, ?_, ?_⟩
      · simp [scan]
      · have : squeezed flags [] = [] := by unfold squeezed; split <;> rfl
        rw [this]; exact Extends.refl st hwf
      · have : squeezed flags [] = [] := by unfold squeezed; split <;> rfl
        rw [this]; rfl
    | cons l ls =>
      have hl := hls l (List.mem_cons_self _ _)
      have hls1 : ∀ x ∈ ls, IsLine x := fun x hx => hls x (List.mem_cons_of_mem _ hx)
      have hne : ¬ (pre ++ (l :: ls).flatten).getD pre.length 0 = 0 := by
        rw [getD_append_length, List.flatten_cons]
        exact hl.head_ne_zero _
      obtain ⟨pre1, ls2, hsrc, hstep, hls2, hsq, hlen⟩ := squeeze_step_ok flags pre l ls hl hls1
      rw [hsq, render_cons, List.length_append] at hfit
      rw [hsq, numberedCount_cons] at hcnt
      simp only [List.flatten_cons] at hsrc hstep hne hfuel ⊢
      obtain ⟨st1, hbody, hx1, hc1⟩ := scan_body_ok flags _ pre1 l ls2.flatten pre.length st
        hsrc hstep hl hwf (by omega) (by intro hn; rw [if_pos hn] at hcnt; omega)
      have hcnt1 : numberedCount flags (squeezed flags ls2) ≠ 0 →
          st1.1.line_count + numberedCount flags (squeezed flags ls2) < 2 ^ 64 := by
        intro h0
        rw [hc1]
        by_cases hn : numbered flags l = true
        · rw [if_pos hn] at hcnt ⊢; omega
        · rw [if_neg hn] at hcnt ⊢; omega
      have hfuel2 : ls2.flatten.length ≤ fuel := by
        have := hl.length_pos
        simp only [List.length_append] at hfuel
        omega
      obtain ⟨st2, hscan, hx2, hc2⟩ := ih (pre1 ++ l) ls2 st1 hls2 hfuel2 hx1.wf
        (by rw [hx1.length, hc1]; omega) hcnt1
      refine ⟨st2, ?_, ?_, ?_⟩
      · rw [scan, if_neg hne, hbody]
        simp only
        rw [hsrc, ← List.append_assoc]; exact hscan
      · rw [hsq, render_cons, ← hc1]
        exact hx1.trans hx2
      · rw [hc2, hc1, hsq, numberedCount_cons]
        split <;> omega

/-! ## Lines of a source -/

theorem flatten_splitLines (s : List Nat) : (splitLines s).flatten = s := by
  induction s with
  | nil => rfl
  | cons b bs ih =>
    unfold splitLines
    by_cases hb : b = 10
    · rw [if_pos hb, List.flatten_cons, ih, hb]; rfl
    · rw [if_neg hb]
      cases h : splitLines bs with
      | nil =>
        rw [h] at ih
        rw [← ih]; rfl
      | cons l ls =>
        rw [h] at ih
        rw [← ih]; rfl

theorem splitLines_shape (s : List Nat) :
    ∀ l ∈ splitLines s, l ≠ [] ∧ 10 ∉ l.dropLast ∧ ∀ x ∈ l, x ∈ s := by
  induction s with
  | nil => intro l hl; simp [splitLines] at hl
  | cons b bs ih =>
    intro l hl
    unfold splitLines at hl
    by_cases hb : b = 10
    · rw [if_pos hb] at hl
      rcases List.mem_cons.1 hl with rfl | hl
      · refine ⟨by simp, by simp, ?_⟩
        intro x hx
        simp only [List.mem_singleton] at hx
        rw [hx, hb]; exact List.mem_cons_self _ _
      · obtain ⟨h1, h2, h3⟩ := ih l hl
        exact ⟨h1, h2, fun x hx => List.mem_cons_of_mem _ (h3 x hx)⟩
    · rw [if_neg hb] at hl
      cases h : splitLines bs with
      | nil =>
        rw [h] at hl
        simp only [List.mem_singleton] at hl
        subst hl
        exact ⟨by simp, by simp, fun x hx => by
          simp only [List.mem_singleton] at hx
          rw [hx]; exact List.mem_cons_self _ _⟩
      | cons l0 ls =>
        rw [h] at hl ih
        rcases List.mem_cons.1 hl with rfl | hl
        · obtain ⟨h1, h2, h3⟩ := ih l0 (List.mem_cons_self _ _)
          refine ⟨by simp, ?_, ?_⟩
          · obtain ⟨y, ys, rfl⟩ := List.exists_cons_of_ne_nil h1
            rw [List.dropLast_cons₂]
            intro hm
            rcases List.mem_cons.1 hm with e | hm
            · exact hb e.symm
            · exact h2 hm
          · intro x hx
            rcases List.mem_cons.1 hx with rfl | hx
            · exact List.mem_cons_self _ _
            · exact List.mem_cons_of_mem _ (h3 x hx)
        · obtain ⟨h1, h2, h3⟩ := ih l (List.mem_cons_of_mem _ hl)
          exact ⟨h1, h2, fun x hx => List.mem_cons_of_mem _ (h3 x hx)⟩

theorem splitLines_isLine (s : List Nat) (hnul : NulFree s) (hnl : NewlineTerminated s) :
    ∀ l ∈ splitLines s, IsLine l := by
  intro l hl
  obtain ⟨h1, h2, h3⟩ := splitLines_shape s l hl
  have hlast := hnl l hl
  refine ⟨l.dropLast, ?_, h2, ?_⟩
  · have := List.dropLast_append_getLast? 10 (by rw [hlast]; rfl : (10 : Nat) ∈ l.getLast?)
    exact this.symm
  · intro h0
    exact hnul (h3 0 (List.mem_of_mem_dropLast h0))

theorem numberedCount_off (flags : Flags) (ls : List (List Nat)) (h1 : flags.number ≠ 1)
    (h2 : flags.number ≠ 2) : numberedCount flags ls = 0 := by
  unfold numberedCount
  rw [List.length_eq_zero, List.filter_eq_nil_iff]
  intro l _
  simp [numbered, h1, h2]

theorem render_unmarked (flags : Flags) (c : Nat) (ls : List (List Nat))
    (h1 : flags.number ≠ 1) (h2 : flags.number ≠ 2) (h3 : flags.show_ends ≠ 1)
    (hls : ∀ l ∈ ls, IsLine l) : render flags c ls = ls.flatten := by
  induction ls with
  | nil => rfl
  | cons l ls ih =>
    obtain ⟨k, rfl, -, -⟩ := hls l (List.mem_cons_self _ _)
    rw [render_cons, List.flatten_cons]
    have hn : numbered flags (k ++ [10]) = false := by simp [numbered, h1, h2]
    rw [hn]
    simp only [Bool.false_eq_true, if_false]
    rw [ih (fun x hx => hls x (List.mem_cons_of_mem _ hx))]
    simp [renderLine, hn, h3]

theorem mem_squeezeLines (ls : List (List Nat)) : ∀ l ∈ squeezeLines ls, l ∈ ls := by
  induction ls with
  | nil => intro l hl; simp [squeezeLines] at hl
  | cons x ls ih =>
    intro l hl
    rw [squeezeLines] at hl
    split at hl
    · exact List.mem_cons_of_mem _ (ih l hl)
    · rcases List.mem_cons.1 hl with rfl | hl
      · exact List.mem_cons_self _ _
      · exact List.mem_cons_of_mem _ (ih l hl)

theorem length_squeezeLines_le (ls : List (List Nat)) :
    (squeezeLines ls).flatten.length ≤ ls.flatten.length := by
  induction ls with
  | nil => simp [squeezeLines]
  | cons x ls ih =>
    rw [squeezeLines]
    split
    · simp only [List.flatten_cons, List.length_append]; omega
    · simp only [List.flatten_cons, List.length_append]; omega

theorem stretches_head (ls : List (List Nat)) :
    (stretches ls).head?.map Stretch.isBlanks = some true ↔ ls.head? = some [10] := by
  cases ls with
  | nil => simp [stretches]
  | cons l ls =>
    by_cases hl : l = [10]
    · subst hl
      rw [stretches, if_pos rfl]
      cases h : stretches ls with
      | nil => simp [Stretch.isBlanks]
      | cons st rest => cases st <;> simp [Stretch.isBlanks]
    · rw [stretches, if_neg hl]
      simp [Stretch.isBlanks, hl]

theorem stretches_ok (ls : List (List Nat)) (hls : ∀ l ∈ ls, IsLine l) :
    StretchesOk (stretches ls) := by
  induction ls with
  | nil => simp [stretches, StretchesOk]
  | cons l ls ih =>
    have ih := ih (fun x hx => hls x (List.mem_cons_of_mem _ hx))
    obtain ⟨c, rfl, h10, h0⟩ := hls l (List.mem_cons_self _ _)
    by_cases hl : c ++ [10] = [10]
    · rw [stretches, if_pos hl]
      cases h : stretches ls with
      | nil => simp [StretchesOk]
      | cons st rest =>
        rw [h] at ih
        cases st with
        | line k =>
          simp only [StretchesOk] at ih ⊢
          exact ⟨Nat.le_refl _, by simp [Stretch.isBlanks], ih⟩
        | blanks k =>
          simp only [StretchesOk] at ih ⊢
          exact ⟨by omega, ih.2.1, ih.2.2⟩
    · rw [stretches, if_neg hl]
      simp only [StretchesOk, List.dropLast_concat]
      refine ⟨?_, h10, h0, ih⟩
      intro hc
      exact hl (by rw [hc]; rfl)

theorem stretches_source (ls : List (List Nat)) (hls : ∀ l ∈ ls, IsLine l) :
    ((stretches ls).map Stretch.source).flatten = ls.flatten := by
  induction ls with
  | nil => simp [stretches]
  | cons l ls ih =>
    have ih := ih (fun x hx => hls x (List.mem_cons_of_mem _ hx))
    obtain ⟨c, rfl, -, -⟩ := hls l (List.mem_cons_self _ _)
    by_cases hl : c ++ [10] = [10]
    · rw [stretches, if_pos hl, hl, List.flatten_cons, ← ih]
      cases h : stretches ls with
      | nil => simp [Stretch.source]
      | cons st rest =>
        cases st with
        | line k => simp [Stretch.source]
        | blanks k => simp [Stretch.source, List.replicate_succ]
    · rw [stretches, if_neg hl, List.flatten_cons, ← ih]
      simp [Stretch.source]

theorem stretches_squeezed (ls : List (List Nat)) (hls : ∀ l ∈ ls, IsLine l) :
    ((stretches ls).map Stretch.squeezedText).flatten = (squeezeLines ls).flatten := by
  induction ls with
  | nil => simp [stretches, squeezeLines]
  | cons l ls ih =>
    have ih := ih (fun x hx => hls x (List.mem_cons_of_mem _ hx))
    obtain ⟨c, rfl, -, -⟩ := hls l (List.mem_cons_self _ _)
    have hh := stretches_head ls
    by_cases hl : c ++ [10] = [10]
    · rw [stretches, if_pos hl, squeezeLines, hl]
      by_cases hn : ls.head? = some [10]
      · rw [if_pos ⟨by simp [blank], hn⟩, ← ih]
        have hb := hh.2 hn
        cases h : stretches ls with
        | nil => rw [h] at hb; simp at hb
        | cons st rest =>
          rw [h] at hb
          cases st with
          | line k => simp [Stretch.isBlanks] at hb
          | blanks k => simp [Stretch.squeezedText]
      · rw [if_neg (fun h => hn h.2), List.flatten_cons, ← ih]
        have hb : ¬ (stretches ls).head?.map Stretch.isBlanks = some true := fun h => hn (hh.1 h)
        cases h : stretches ls with
        | nil => simp [Stretch.squeezedText]
        | cons st rest =>
          rw [h] at hb
          cases st with
          | line k => simp [Stretch.squeezedText]
          | blanks k => simp [Stretch.isBlanks] at hb
    · rw [stretches, if_neg hl, squeezeLines, if_neg (fun h => hl (by simpa [blank] using h.1)),
        List.flatten_cons, ← ih]
      simp [Stretch.squeezedText]

theorem numbered_all (l : List Nat) : numbered ⟨1, 0, 0⟩ l = true := by simp [numbered]

theorem render_number_all (c k : Nat) (ls : List (List Nat)) (hls : ∀ l ∈ ls, IsLine l) :
    render ⟨1, 0, 0⟩ (c + k) ls =
      ((ls.enumFrom (k + 1)).map (fun p => decimal (c + p.1) ++ [9] ++ p.2)).flatten := by
  induction ls generalizing k with
  | nil => rfl
  | cons l ls ih =>
    obtain ⟨x, rfl, -, -⟩ := hls l (List.mem_cons_self _ _)
    rw [render_cons, numbered_all, if_pos rfl, Nat.add_assoc,
      ih (k + 1) (fun y hy => hls y (List.mem_cons_of_mem _ hy))]
    simp [renderLine, numbered, Nat.add_assoc]

theorem numberedCount_all (ls : List (List Nat)) : numberedCount ⟨1, 0, 0⟩ ls = ls.length := by
  unfold numberedCount
  rw [List.filter_eq_self.2 (fun l _ => numbered_all l)]

theorem numbered_nonblank (l : List Nat) (hl : IsLine l) :
    numbered ⟨2, 0, 0⟩ l = true ↔ l ≠ [10] := by
  obtain ⟨c, rfl, -, -⟩ := hl
  cases c <;> simp [numbered]

theorem render_number_nonblank (c : Nat) (ls : List (List Nat)) (hls : ∀ l ∈ ls, IsLine l) :
    render ⟨2, 0, 0⟩ c ls = numberNonblank c ls := by
  induction ls generalizing c with
  | nil => rfl
  | cons l ls ih =>
    have hl := hls l (List.mem_cons_self _ _)
    have hn := numbered_nonblank l hl
    obtain ⟨x, rfl, -, -⟩ := hl
    rw [render_cons, numberNonblank]
    by_cases hb : x ++ [10] = [10]
    · have hf : ¬ numbered ⟨2, 0, 0⟩ (x ++ [10]) = true := fun h => hn.1 h hb
      rw [if_neg hf, if_pos hb, ih c (fun y hy => hls y (List.mem_cons_of_mem _ hy))]
      simp [renderLine, hf]
    · have ht : numbered ⟨2, 0, 0⟩ (x ++ [10]) = true := hn.2 hb
      rw [if_pos ht, if_neg hb, ih (c + 1) (fun y hy => hls y (List.mem_cons_of_mem _ hy))]
      simp [renderLine, ht]

theorem numberedCount_nonblank (ls : List (List Nat)) (hls : ∀ l ∈ ls, IsLine l) :
    numberedCount ⟨2, 0, 0⟩ ls = (ls.filter (fun l => decide (l ≠ [10]))).length := by
  unfold numberedCount
  congr 1
  apply List.filter_congr
  intro l hl
  have := numbered_nonblank l (hls l hl)
  by_cases hb : l = [10]
  · simp [hb, numbered]
  · simp [hb, this.2 hb]

theorem render_show_ends (c : Nat) (ls : List (List Nat)) :
    render ⟨0, 0, 1⟩ c ls = (ls.map (fun l => l.dropLast ++ [36, 10])).flatten := by
  induction ls generalizing c with
  | nil => rfl
  | cons l ls ih =>
    have hn : numbered ⟨0, 0, 1⟩ l = false := by simp [numbered]
    rw [render_cons, hn]
    simp only [Bool.false_eq_true, if_false]
    rw [ih]
    simp [renderLine, hn]

theorem length_marked (ls : List (List Nat)) (hls : ∀ l ∈ ls, IsLine l) :
    ((ls.map (fun l => l.dropLast ++ [36, 10])).flatten).length =
      ls.flatten.length + ls.length := by
  induction ls with
  | nil => rfl
  | cons l ls ih =>
    obtain ⟨c, rfl, -, -⟩ := hls l (List.mem_cons_self _ _)
    have ih := ih (fun x hx => hls x (List.mem_cons_of_mem _ hx))
    simp only [List.map_cons, List.flatten_cons, List.length_append, List.dropLast_concat,
      List.length_cons, List.length_nil] at ih ⊢
    omega

theorem splitLines_line (c rest : List Nat) (h10 : 10 ∉ c) :
    splitLines (c ++ [10] ++ rest) = (c ++ [10]) :: splitLines rest := by
  induction c with
  | nil => simp [splitLines]
  | cons x c ih =>
    simp only [List.mem_cons, not_or] at h10
    have hx : ¬ x = 10 := fun h => h10.1 h.symm
    show splitLines (x :: (c ++ [10] ++ rest)) = _
    rw [splitLines, if_neg hx, ih h10.2]
    rfl

theorem splitLines_flatten (ls : List (List Nat)) (hls : ∀ l ∈ ls, IsLine l) :
    splitLines ls.flatten = ls := by
  induction ls with
  | nil => rfl
  | cons l ls ih =>
    obtain ⟨c, rfl, h10, -⟩ := hls l (List.mem_cons_self _ _)
    rw [List.flatten_cons, splitLines_line c _ h10,
      ih (fun x hx => hls x (List.mem_cons_of_mem _ hx))]

theorem splitLines_append (s1 s2 : List Nat) (hnul1 : NulFree s1) (hnl1 : NewlineTerminated s1)
    (hnul2 : NulFree s2) (hnl2 : NewlineTerminated s2) :
    splitLines (s1 ++ s2) = splitLines s1 ++ splitLines s2 := by
  have h1 := splitLines_isLine s1 hnul1 hnl1
  have h2 := splitLines_isLine s2 hnul2 hnl2
  have h := splitLines_flatten (splitLines s1 ++ splitLines s2) (by
    intro l hl
    rcases List.mem_append.1 hl with hl | hl
    · exact h1 l hl
    · exact h2 l hl)
  rw [List.flatten_append, flatten_splitLines, flatten_splitLines] at h
  exact h

theorem render_append (flags : Flags) (c : Nat) (a b : List (List Nat)) :
    render flags c (a ++ b) = render flags c a ++ render flags (c + numberedCount flags a) b := by
  induction a generalizing c with
  | nil => simp [render, numberedCount]
  | cons l a ih =>
    rw [List.cons_append, render_cons, render_cons, ih, numberedCount_cons, List.append_assoc]
    congr 3
    split <;> omega

theorem numberedCount_append (flags : Flags) (a b : List (List Nat)) :
    numberedCount flags (a ++ b) = numberedCount flags a + numberedCount flags b := by
  unfold numberedCount
  rw [List.filter_append, List.length_append]

/-! ## The whole append -/

theorem append_lines_ok (out : Buffer) (flags : Flags) (ls : List (List Nat))
    (hls : ∀ l ∈ ls, IsLine l) (hwf : out.WF)
    (hfit : 3 * (out.length + (render flags out.line_count (squeezed flags ls)).length) < 2 ^ 64)
    (hcnt : numberedCount flags (squeezed flags ls) ≠ 0 →
      out.line_count + numberedCount flags (squeezed flags ls) < 2 ^ 64) :
    ∃ r, output_append_with_flags out flags ls.flatten = .ok r ∧ r.1.WF ∧
      r.1.text = out.text ++ render flags out.line_count (squeezed flags ls) ∧
      r.1.length = out.length + (render flags out.line_count (squeezed flags ls)).length ∧
      r.1.line_count = out.line_count + numberedCount flags (squeezed flags ls) ∧
      out.capacity ≤ r.1.capacity := by
  obtain ⟨st, hscan, hx, hc⟩ := scan_ok flags ls.flatten.length [] ls (out, []) hls
    (Nat.le_refl _) hwf hfit hcnt
  simp only [List.nil_append, List.length_nil] at hscan
  unfold output_append_with_flags
  rw [hscan]
  refine ⟨_, rfl, ⟨?_, hx.wf.2⟩, ?_, hx.length, hc, hx.cap⟩
  · show (store st.1.data st.1.length [0]).length = st.1.capacity
    rw [length_store]; exact hx.wf.1
  · show (store st.1.data st.1.length [0]).take st.1.length = _
    rw [take_store_of_le _ _ _ _ (Nat.le_refl _)]
    exact hx.text

theorem append_ok (out : Buffer) (flags : Flags) (s : List Nat)
    (hnul : NulFree s) (hnl : NewlineTerminated s) (hwf : out.WF) (hfit : NoWrap out flags s) :
    ∃ r, output_append_with_flags out flags s = .ok r ∧ r.1.WF ∧
      r.1.text = out.text ++ render flags out.line_count (keptLines flags s) ∧
      r.1.length = out.length + (render flags out.line_count (keptLines flags s)).length ∧
      r.1.line_count = out.line_count + numberedCount flags (keptLines flags s) ∧
      out.capacity ≤ r.1.capacity := by
  have h := append_lines_ok out flags (splitLines s) (splitLines_isLine s hnul hnl) hwf
    hfit.1 (fun _ => hfit.2)
  rw [flatten_splitLines] at h
  exact h

theorem append_unnumbered_ok (out : Buffer) (flags : Flags) (s : List Nat)
    (hnul : NulFree s) (hnl : NewlineTerminated s) (hwf : out.WF)
    (h1 : flags.number ≠ 1) (h2 : flags.number ≠ 2)
    (hfit : 3 * (out.length + (render flags out.line_count (keptLines flags s)).length) < 2 ^ 64) :
    ∃ r, output_append_with_flags out flags s = .ok r ∧ r.1.WF ∧
      r.1.text = out.text ++ render flags out.line_count (keptLines flags s) ∧
      r.1.length = out.length + (render flags out.line_count (keptLines flags s)).length ∧
      r.1.line_count = out.line_count ∧ out.capacity ≤ r.1.capacity := by
  have hc : numberedCount flags (squeezed flags (splitLines s)) = 0 :=
    numberedCount_off _ _ h1 h2
  have h := append_lines_ok out flags (splitLines s) (splitLines_isLine s hnul hnl) hwf
    hfit (fun h0 => absurd hc h0)
  rw [flatten_splitLines, hc] at h
  exact h

/-! ## The command line -/

theorem first_buffer : buffer_grow ⟨0, 0, 0, []⟩ 256 = .ok initial_buffer := by decide!

theorem flag_test_iff (arg : List Nat) :
    (arg.length ≠ 1 ∧ arg.headD 0 = 45) ↔ isFlagToken arg = true := by
  unfold isFlagToken
  cases arg with
  | nil => simp
  | cons b bs =>
    cases bs with
    | nil => simp
    | cons c cs => simp

theorem parse_flags_eq (argv : List (List Nat)) (flags : Flags) (n : Nat) :
    parse_flags flags n argv =
      (List.foldlM flag_set flags (argv.filter isFlagToken)).map
        (fun f => (f, n + (argv.filter isFlagToken).length)) := by
  induction argv generalizing flags n with
  | nil => rfl
  | cons arg rest ih =>
    rw [parse_flags]
    by_cases h : isFlagToken arg = true
    · rw [if_pos ((flag_test_iff arg).2 h), List.filter_cons_of_pos h, List.foldlM_cons]
      cases hf : flag_set flags arg with
      | error e => rfl
      | ok f =>
        simp only [ih]
        show _ = (List.foldlM flag_set f (List.filter isFlagToken rest)).map _
        congr 1
        funext g
        simp only [List.length_cons]
        congr 1
        omega
    · rw [if_neg (fun hc => h ((flag_test_iff arg).1 hc)), List.filter_cons_of_neg h]
      exact ih flags n

theorem recognized_iff (t : List Nat) :
    recognized t = true ↔ t = [45, 110] ∨ t = [45, 98] ∨ t = [45, 115] ∨ t = [45, 69] := by
  simp [recognized, or_assoc]

theorem numberingOf_snoc (ts : List (List Nat)) (t : List Nat) :
    numberingOf (ts ++ [t]) =
      if t = [45, 110] then 1 else if t = [45, 98] then 2 else numberingOf ts := by
  unfold numberingOf
  rw [List.filter_append]
  by_cases h1 : t = [45, 110]
  · subst h1
    simp [List.filter_cons]
  · by_cases h2 : t = [45, 98]
    · subst h2
      simp [List.filter_cons]
    · simp [List.filter_cons, h1, h2]

theorem fold_flags (ts : List (List Nat)) (h : ∀ t ∈ ts, recognized t = true) :
    List.foldlM flag_set ⟨0, 0, 0⟩ ts = .ok (configOf ts) := by
  induction ts using List.reverseRecOn with
  | nil => rfl
  | append_singleton ts t ih =>
    have ih := ih (fun x hx => h x (List.mem_append_left _ hx))
    have ht := (recognized_iff t).1 (h t (List.mem_append_right _ (List.mem_singleton_self t)))
    rw [List.foldlM_append, ih]
    show List.foldlM flag_set (configOf ts) [t] = _
    rw [List.foldlM_cons]
    simp only [List.foldlM_nil]
    unfold configOf
    rw [numberingOf_snoc]
    rcases ht with rfl | rfl | rfl | rfl <;>
      simp [flag_set, NUMBER_LINES, NUMBER_NONBLANK_LINES, SHOW_ENDS, SQUEEZE_BLANK_LINES,
        bind, Except.bind, pure, Except.pure]

theorem flag_set_frame (flags f : Flags) (t : List Nat) (h : flag_set flags t = .ok f) :
    ((t = [45, 110] ∨ t = [45, 98]) →
      f.squeeze_blank = flags.squeeze_blank ∧ f.show_ends = flags.show_ends) ∧
    (t = [45, 115] → f.number = flags.number ∧ f.show_ends = flags.show_ends) ∧
    (t = [45, 69] → f.number = flags.number ∧ f.squeeze_blank = flags.squeeze_blank) := by
  unfold flag_set at h
  refine ⟨?_, ?_, ?_⟩
  · rintro (rfl | rfl)
    · simp at h; subst h; exact ⟨rfl, rfl⟩
    · simp at h; subst h; exact ⟨rfl, rfl⟩
  · rintro rfl
    simp at h; subst h; exact ⟨rfl, rfl⟩
  · rintro rfl
    simp at h; subst h; exact ⟨rfl, rfl⟩

theorem read_args_eq (flags : Flags) (argv : List (List Nat)) (w : World) (out : Buffer) :
    read_args flags argv w out =
      read_in_order flags ((argv.filter isPositional).map sourceOf) w out := by
  induction argv generalizing w out with
  | nil => rfl
  | cons arg rest ih =>
    rw [read_args]
    by_cases hd : arg.headD 0 = 45
    · rw [if_pos hd]
      by_cases hl : arg.length = 1
      · have harg : arg = [45] := by
          cases arg with
          | nil => simp at hl
          | cons b bs =>
            cases bs with
            | nil => simp at hd; rw [hd]
            | cons c cs => simp at hl
        subst harg
        have hnf : isPositional [45] = true := by decide
        rw [if_pos hl, List.filter_cons_of_pos hnf, List.map_cons, read_in_order]
        have hs : sourceOf [45] = Source.stdin := by decide
        rw [hs]
        show _ = match output_append_stdin w out flags with
          | (w, .error e) => (w, .error e)
          | (w, .ok st) => read_in_order flags _ w st.1
        rcases output_append_stdin w out flags with ⟨w2, e | st⟩
        · rfl
        · exact ih w2 st.1
      · have hf : ¬ isPositional arg = true := by
          have := (flag_test_iff arg).1 ⟨hl, hd⟩
          simp [isPositional, this]
        rw [if_neg hl, List.filter_cons_of_neg hf]
        exact ih w out
    · have hnf : isPositional arg = true := by
        have : ¬ isFlagToken arg = true := fun h => hd ((flag_test_iff arg).2 h).2
        simpa [isPositional] using this
      have hs : sourceOf arg = Source.file arg := by
        unfold sourceOf
        rw [if_neg]
        rintro rfl
        exact hd rfl
      rw [if_neg hd, List.filter_cons_of_pos hnf, List.map_cons, read_in_order, hs]
      show _ = match output_append_file w out flags arg with
        | (w, .error e) => (w, .error e)
        | (w, .ok st) => read_in_order flags _ w st.1
      rcases output_append_file w out flags arg with ⟨w2, e | st⟩
      · rfl
      · exact ih w2 st.1

theorem read_sources_eq (flags : Flags) (argv : List (List Nat)) (w : World) (out : Buffer) :
    read_sources flags (argv.filter isFlagToken).length argv w out =
      read_in_order flags (plannedSources argv) w out := by
  unfold read_sources plannedSources
  by_cases hall : argv.all isFlagToken = true
  · have hlen : (argv.filter isFlagToken).length = argv.length := by
      rw [List.filter_eq_self.2 (List.all_eq_true.1 hall)]
    rw [if_pos hlen, if_pos hall, read_in_order]
    show _ = match output_append_stdin w out flags with
      | (w, .error e) => (w, .error e)
      | (w, .ok st) => read_in_order flags [] w st.1
    rcases output_append_stdin w out flags with ⟨w2, e | st⟩ <;> rfl
  · have hlen : ¬ (argv.filter isFlagToken).length = argv.length := by
      intro h
      apply hall
      rw [List.all_eq_true]
      exact List.filter_length_eq_length.1 h
    rw [if_neg hlen, if_neg hall]
    exact read_args_eq flags argv w out

theorem main_eq (w : World) (argv : List (List Nat)) :
    main w argv =
      match List.foldlM flag_set ⟨0, 0, 0⟩ (argv.filter isFlagToken) with
      | .error e => (w, .error e)
      | .ok flags => printed (read_in_order flags (plannedSources argv) w initial_buffer) := by
  unfold main
  rw [first_buffer, parse_flags_eq]
  cases List.foldlM flag_set ⟨0, 0, 0⟩ (argv.filter isFlagToken) with
  | error e => rfl
  | ok flags =>
    simp only [Except.map, Nat.zero_add, read_sources_eq]
    rfl

theorem flag_set_unrecognized (flags : Flags) (t : List Nat) (h : recognized t = false) :
    flag_set flags t = .error .invalid_flag := by
  have h2 : ¬ (t = [45, 110] ∨ t = [45, 98] ∨ t = [45, 115] ∨ t = [45, 69]) := by
    rw [← recognized_iff, h]; decide
  simp only [not_or] at h2
  unfold flag_set
  rw [if_neg h2.1, if_neg h2.2.1, if_neg h2.2.2.2, if_neg h2.2.2.1]

theorem flag_set_recognized (flags : Flags) (t : List Nat) (h : recognized t = true) :
    ∃ f, flag_set flags t = .ok f := by
  rcases (recognized_iff t).1 h with rfl | rfl | rfl | rfl <;> exact ⟨_, rfl⟩

theorem fold_flags_error (ts : List (List Nat)) (flags : Flags)
    (h : ∃ t ∈ ts, recognized t = false) :
    List.foldlM flag_set flags ts = .error .invalid_flag := by
  induction ts generalizing flags with
  | nil => obtain ⟨t, ht, -⟩ := h; simp at ht
  | cons t ts ih =>
    rw [List.foldlM_cons]
    by_cases hr : recognized t = true
    · obtain ⟨f, hf⟩ := flag_set_recognized flags t hr
      rw [hf]
      apply ih
      obtain ⟨x, hx, hbad⟩ := h
      rcases List.mem_cons.1 hx with rfl | hx
      · rw [hr] at hbad; exact absurd hbad (by decide)
      · exact ⟨x, hx, hbad⟩
    · rw [flag_set_unrecognized flags t (by simpa using hr)]
      rfl

theorem read_stdin_reads (w : World) : (read_stdin w).1.reads = w.reads ++ [Source.stdin] := by
  unfold read_stdin
  rw [first_buffer]
  simp only
  rcases stdin_loop w.stdin (initial_buffer, []) with ⟨rest, e | data⟩
  · rfl
  · simp only
    split <;> rfl

theorem read_source_reads (flags : Flags) (w : World) (out : Buffer) (src : Source) :
    (read_source flags w out src).1.reads = w.reads ++ [src] := by
  cases src with
  | stdin =>
    have h := read_stdin_reads w
    show (output_append_stdin w out flags).1.reads = _
    unfold output_append_stdin
    rcases hr : read_stdin w with ⟨w2, e | data⟩
    · rw [hr] at h; exact h
    · rw [hr] at h; exact h
  | file file_path =>
    show (output_append_file w out flags file_path).1.reads = _
    unfold output_append_file
    simp only
    split
    · rfl
    · split <;> rfl

theorem read_in_order_reads (flags : Flags) (srcs : List Source) (w w2 : World)
    (out b : Buffer) (h : read_in_order flags srcs w out = (w2, .ok b)) :
    w2.reads = w.reads ++ srcs := by
  induction srcs generalizing w out with
  | nil =>
    simp only [read_in_order, Prod.mk.injEq] at h
    rw [← h.1]; simp
  | cons src rest ih =>
    rw [read_in_order] at h
    have hr := read_source_reads flags w out src
    rcases hrs : read_source flags w out src with ⟨w1, e | st⟩
    · rw [hrs] at h; simp at h
    · rw [hrs] at h hr
      simp only at h hr
      rw [ih w1 st.1 h, hr, List.append_assoc]
      rfl

/-! ## Only flag parsing reports an invalid flag -/

theorem buffer_grow_fault (buf : Buffer) (capacity : Nat) (e : Fault)
    (h : buffer_grow buf capacity = .error e) : e ≠ .invalid_flag := by
  unfold buffer_grow at h
  split at h
  · simp only [Except.error.injEq] at h
    rw [← h]; decide
  · simp at h

theorem grow_if_short_fault (st : Logged) (need capacity : Nat) (e : Fault)
    (h : grow_if_short st need capacity = .error e) : e ≠ .invalid_flag := by
  unfold grow_if_short at h
  split at h
  · rcases hb : buffer_grow st.1 capacity with e2 | b
    · rw [hb] at h
      simp only [Except.error.injEq] at h
      rw [← h]; exact buffer_grow_fault _ _ _ hb
    · rw [hb] at h; simp at h
  · simp at h

theorem append_number_fault (flags : Flags) (st : Logged) (n : Nat) (e : Fault)
    (h : append_number flags st n = .error e) : e ≠ .invalid_flag := by
  unfold append_number at h
  split at h
  · simp only [bind, Except.bind, pure, Except.pure] at h
    split at h
    · rename_i e2 hg
      simp only [Except.error.injEq] at h
      rw [← h]; exact grow_if_short_fault _ _ _ _ hg
    · simp at h
  · simp [pure, Except.pure] at h

theorem append_copy_fault (st : Logged) (data : List Nat) (n : Nat) (e : Fault)
    (h : append_copy st data n = .error e) : e ≠ .invalid_flag := by
  unfold append_copy at h
  simp only [bind, Except.bind, pure, Except.pure] at h
  split at h
  · rename_i e2 hg
    simp only [Except.error.injEq] at h
    rw [← h]; exact grow_if_short_fault _ _ _ _ hg
  · simp at h

theorem append_end_fault (flags : Flags) (st : Logged) (e : Fault)
    (h : append_end flags st = .error e) : e ≠ .invalid_flag := by
  unfold append_end at h
  split at h
  · simp only [bind, Except.bind, pure, Except.pure] at h
    split at h
    · rename_i e2 hg
      simp only [Except.error.injEq] at h
      rw [← h]; exact grow_if_short_fault _ _ _ _ hg
    · simp at h
  · simp [pure, Except.pure] at h

theorem append_line_fault (flags : Flags) (st : Logged) (data : List Nat) (n : Nat) (e : Fault)
    (h : append_line flags st data n = .error e) : e ≠ .invalid_flag := by
  unfold append_line at h
  simp only [bind, Except.bind] at h
  rcases h1 : append_number flags st n with e1 | st1
  · rw [h1] at h
    simp only [Except.error.injEq] at h
    rw [← h]; exact append_number_fault _ _ _ _ h1
  · rw [h1] at h
    simp only at h
    rcases h2 : append_copy st1 data n with e2 | st2
    · rw [h2] at h
      simp only [Except.error.injEq] at h
      rw [← h]; exact append_copy_fault _ _ _ _ h2
    · rw [h2] at h
      exact append_end_fault _ _ _ h

theorem scan_body_fault (flags : Flags) (src : List Nat) (data : Nat) (st : Logged) (e : Fault)
    (h : scan_body flags src data st = .error e) : e ≠ .invalid_flag := by
  unfold scan_body at h
  simp only at h
  split at h
  · simp only [Except.error.injEq] at h
    rw [← h]; decide
  · split at h
    · rename_i e2 hl
      simp only [Except.error.injEq] at h
      rw [← h]; exact append_line_fault _ _ _ _ _ hl
    · simp at h

theorem scan_fault (flags : Flags) (src : List Nat) (fuel data : Nat) (st : Logged) (e : Fault)
    (h : scan flags src fuel data st = .error e) : e ≠ .invalid_flag := by
  induction fuel generalizing data st with
  | zero =>
    rw [scan] at h
    split at h
    · simp at h
    · simp only [Except.error.injEq] at h
      rw [← h]; decide
  | succ fuel ih =>
    rw [scan] at h
    split at h
    · simp at h
    · rcases hb : scan_body flags src data st with e2 | ⟨data2, st2⟩
      · rw [hb] at h
        simp only [Except.error.injEq] at h
        rw [← h]; exact scan_body_fault _ _ _ _ _ hb
      · rw [hb] at h
        exact ih _ _ h

theorem output_append_with_flags_fault (out : Buffer) (flags : Flags) (data : List Nat)
    (e : Fault) (h : output_append_with_flags out flags data = .error e) :
    e ≠ .invalid_flag := by
  unfold output_append_with_flags at h
  rcases hs : scan flags data data.length 0 (out, []) with e2 | st
  · rw [hs] at h
    simp only [Except.error.injEq] at h
    rw [← h]; exact scan_fault _ _ _ _ _ _ hs
  · rw [hs] at h; simp at h

theorem grow_if_full_fault (data : Logged) (e : Fault) (h : grow_if_full data = .error e) :
    e ≠ .invalid_flag := by
  unfold grow_if_full at h
  split at h
  · rcases hb : buffer_grow data.1 (wrap (data.1.capacity * 2 + 1)) with e2 | b
    · rw [hb] at h
      simp only [Except.error.injEq] at h
      rw [← h]; exact buffer_grow_fault _ _ _ hb
    · rw [hb] at h; simp at h
  · simp at h

theorem stdin_loop_fault (stream : List Nat) (data : Logged) (e : Fault)
    (h : (stdin_loop stream data).2 = .error e) : e ≠ .invalid_flag := by
  induction stream generalizing data with
  | nil => simp [stdin_loop] at h
  | cons c rest ih =>
    rw [stdin_loop] at h
    split at h
    · simp at h
    · rcases hg : grow_if_full data with e2 | d2
      · rw [hg] at h
        simp only [Except.error.injEq] at h
        rw [← h]; exact grow_if_full_fault _ _ hg
      · rw [hg] at h
        exact ih _ h

theorem read_stdin_fault (w : World) (e : Fault) (h : (read_stdin w).2 = .error e) :
    e ≠ .invalid_flag := by
  unfold read_stdin at h
  rw [first_buffer] at h
  simp only at h
  have hl := stdin_loop_fault w.stdin (initial_buffer, [])
  rcases hs : stdin_loop w.stdin (initial_buffer, []) with ⟨rest, e2 | data⟩
  · rw [hs] at h hl
    simp only [Except.error.injEq] at h
    rw [← h]; exact hl e2 rfl
  · rw [hs] at h
    simp only at h
    split at h
    · simp only [Except.error.injEq] at h
      rw [← h]; decide
    · simp at h

theorem read_source_fault (flags : Flags) (w : World) (out : Buffer) (src : Source) (e : Fault)
    (h : (read_source flags w out src).2 = .error e) : e ≠ .invalid_flag := by
  cases src with
  | stdin =>
    change (output_append_stdin w out flags).2 = .error e at h
    unfold output_append_stdin at h
    have hr := read_stdin_fault w
    rcases hs : read_stdin w with ⟨w2, e2 | data⟩
    · rw [hs] at h hr
      simp only [Except.error.injEq] at h
      rw [← h]; exact hr e2 rfl
    · rw [hs] at h
      exact output_append_with_flags_fault _ _ _ _ h
  | file file_path =>
    change (output_append_file w out flags file_path).2 = .error e at h
    unfold output_append_file at h
    simp only at h
    split at h
    · simp only [Except.error.injEq] at h
      rw [← h]; decide
    · split at h
      · simp at h
      · exact output_append_with_flags_fault _ _ _ _ h

theorem read_in_order_fault (flags : Flags) (srcs : List Source) (w : World) (out : Buffer)
    (e : Fault) (h : (read_in_order flags srcs w out).2 = .error e) : e ≠ .invalid_flag := by
  induction srcs generalizing w out with
  | nil => simp [read_in_order] at h
  | cons src rest ih =>
    rw [read_in_order] at h
    have hr := read_source_fault flags w out src
    rcases hs : read_source flags w out src with ⟨w1, e1 | st⟩
    · rw [hs] at h hr
      simp only [Except.error.injEq] at h
      rw [← h]; exact hr e1 rfl
    · rw [hs] at h
      exact ih _ _ h

/-! ## The growth tests -/

theorem grow_if_short_grows (st : Logged) (need capacity : Nat)
    (hneed : st.1.length + need < 2 ^ 64) (hcap : capacity ≤ BUFFER_MAX_CAPACITY)
    (hfits : st.1.capacity < st.1.length + need → st.1.length + need + 1 ≤ capacity)
    (hmono : st.1.capacity < st.1.length + need → st.1.capacity ≤ capacity) :
    ∃ st2, grow_if_short st need capacity = .ok st2 ∧ Grows st st2 need capacity ∧
      st2.1.length = st.1.length ∧ st2.1.line_count = st.1.line_count := by
  unfold grow_if_short
  rw [wrap_of_lt hneed]
  by_cases hc : st.1.capacity < st.1.length + need
  · have hg : ¬ capacity > BUFFER_MAX_CAPACITY := by omega
    simp only [hc, if_true, buffer_grow, hg, if_false]
    exact ⟨_, rfl, ⟨fun _ => ⟨rfl, hfits hc⟩, fun h => absurd hc h, hmono hc⟩, rfl, rfl⟩
  · simp only [hc, if_false]
    exact ⟨st, rfl, ⟨fun h => absurd h hc, fun _ => rfl, Nat.le_refl _⟩, rfl, rfl⟩

theorem Grows.of_capacity {st st2 st3 : Logged} {n c : Nat} (h : Grows st st2 n c)
    (hc : st3.1.capacity = st2.1.capacity) : Grows st st3 n c := by
  unfold Grows at *
  rw [hc]; exact h

/-! ## Runs of blank lines -/

theorem head_squeezeLines (ls : List (List Nat)) (h : (squeezeLines ls).head? = some [10]) :
    ls.head? = some [10] := by
  cases ls with
  | nil => simp [squeezeLines] at h
  | cons l rest =>
    rw [squeezeLines] at h
    split at h
    · rename_i hc
      have : l = [10] := by simpa [blank] using hc.1
      rw [this]; rfl
    · simpa using h

theorem squeezeLines_chain (ls : List (List Nat)) :
    List.Chain' (fun a b => ¬ (a = [10] ∧ b = [10])) (squeezeLines ls) := by
  induction ls with
  | nil => simp [squeezeLines]
  | cons l rest ih =>
    rw [squeezeLines]
    split
    · exact ih
    · rename_i hc
      rw [List.chain'_cons']
      refine ⟨?_, ih⟩
      intro y hy hboth
      apply hc
      refine ⟨by simp [blank, hboth.1], head_squeezeLines rest ?_⟩
      rw [Option.mem_def] at hy
      rw [hy, hboth.2]

theorem infix_skip_content (c t : List Nat) (h10 : 10 ∉ c) :
    [10, 10, 10] <:+: c ++ t ↔ [10, 10, 10] <:+: t := by
  induction c with
  | nil => rfl
  | cons x c ih =>
    simp only [List.mem_cons, not_or] at h10
    rw [List.cons_append, List.infix_cons_iff, ih h10.2, List.cons_prefix_cons]
    constructor
    · rintro (⟨e, -⟩ | h)
      · exact absurd e h10.1
      · exact h
    · exact Or.inr

theorem no_blank_run_of_chain (ls : List (List Nat)) (hls : ∀ l ∈ ls, IsLine l)
    (hch : List.Chain' (fun a b => ¬ (a = [10] ∧ b = [10])) ls) : NoBlankRun ls.flatten := by
  induction ls with
  | nil => constructor <;> simp
  | cons l rest ih =>
    rw [List.chain'_cons'] at hch
    have hrest : ∀ x ∈ rest, IsLine x := fun x hx => hls x (List.mem_cons_of_mem _ hx)
    obtain ⟨ih1, ih2⟩ := ih hrest hch.2
    obtain ⟨c, rfl, h10, -⟩ := hls l (List.mem_cons_self _ _)
    have hhead : c = [] → ¬ [10] <+: rest.flatten := by
      intro hc hp
      have hne : rest.head? ≠ some [10] := by
        intro hr
        exact hch.1 [10] (by rw [hr]; rfl) ⟨by rw [hc]; rfl, rfl⟩
      apply head_flatten_ne rest hrest hne
      obtain ⟨t, ht⟩ := hp
      rw [← ht]; rfl
    rw [List.flatten_cons]
    constructor
    · cases c with
      | nil =>
        intro hp
        rw [List.nil_append, List.singleton_append, List.cons_prefix_cons] at hp
        exact hhead rfl hp.2
      | cons x c =>
        simp only [List.mem_cons, not_or] at h10
        intro hp
        rw [List.cons_append, List.cons_append, List.cons_prefix_cons] at hp
        exact h10.1 hp.1
    · rw [List.append_assoc, infix_skip_content c _ h10, List.singleton_append,
        List.infix_cons_iff, List.cons_prefix_cons]
      rintro (⟨-, hp⟩ | hi)
      · exact ih1 hp
      · exact ih2 hi

theorem squeezedSource_no_blank_run (s : List Nat) (hnul : NulFree s)
    (hnl : NewlineTerminated s) : NoBlankRun (squeezedSource s) := by
  unfold squeezedSource
  exact no_blank_run_of_chain _
    (fun l hl => splitLines_isLine s hnul hnl l (mem_squeezeLines _ l hl))
    (squeezeLines_chain _)

theorem append_all_squeeze (ss : List (List Nat)) (out : Buffer)
    (hss : ∀ s ∈ ss, NulFree s ∧ NewlineTerminated s) (hwf : out.WF)
    (hfit : 3 * (out.length + ss.flatten.length) < 2 ^ 64) :
    ∃ b, append_all ⟨0, 1, 0⟩ out ss = .ok b ∧
      b.text = out.text ++ (ss.map squeezedSource).flatten := by
  induction ss generalizing out with
  | nil => exact ⟨out, rfl, by simp⟩
  | cons s rest ih =>
    obtain ⟨hnul, hnl⟩ := hss s (List.mem_cons_self _ _)
    have hls := splitLines_isLine s hnul hnl
    have hr : render ⟨0, 1, 0⟩ out.line_count (keptLines ⟨0, 1, 0⟩ s) = squeezedSource s := by
      have hk : keptLines ⟨0, 1, 0⟩ s = squeezeLines (splitLines s) := by
        simp [keptLines, squeezed]
      rw [hk]
      exact render_unmarked _ _ _ (by decide) (by decide) (by decide)
        (fun l hl => hls l (mem_squeezeLines _ l hl))
    have hle : (squeezedSource s).length ≤ s.length := by
      have := length_squeezeLines_le (splitLines s)
      rw [flatten_splitLines] at this
      exact this
    simp only [List.flatten_cons, List.length_append] at hfit
    obtain ⟨r, h, hwf1, ht, hl, -, -⟩ := append_unnumbered_ok out ⟨0, 1, 0⟩ s hnul hnl hwf
      (by decide) (by decide) (by rw [hr]; omega)
    rw [hr] at ht hl
    obtain ⟨b, hb, hbt⟩ := ih r.1 (fun x hx => hss x (List.mem_cons_of_mem _ hx)) hwf1
      (by rw [hl]; omega)
    refine ⟨b, ?_, ?_⟩
    · rw [append_all, h]; exact hb
    · rw [hbt, ht, List.map_cons, List.flatten_cons, List.append_assoc]

/-! ## What an append adds -/

theorem squeezeLines_ne_nil (ls : List (List Nat)) (h : ls ≠ []) : squeezeLines ls ≠ [] := by
  induction ls with
  | nil => exact absurd rfl h
  | cons l rest ih =>
    rw [squeezeLines]
    split
    · rename_i hc
      apply ih
      intro hr
      rw [hr] at hc
      simp at hc
    · simp

theorem keptLines_eq_nil (flags : Flags) (s : List Nat) : keptLines flags s = [] ↔ s = [] := by
  constructor
  · intro h
    by_contra hs
    have hsp : splitLines s ≠ [] := by
      intro h0
      have := flatten_splitLines s
      rw [h0] at this
      exact hs this.symm
    unfold keptLines squeezed at h
    split at h
    · exact squeezeLines_ne_nil _ hsp h
    · exact hsp h
  · rintro rfl
    unfold keptLines squeezed
    split <;> rfl

theorem render_eq_nil (flags : Flags) (c : Nat) (ls : List (List Nat)) :
    render flags c ls = [] ↔ ls = [] := by
  constructor
  · intro h
    cases ls with
    | nil => rfl
    | cons l rest =>
      rw [render_cons] at h
      have := congrArg List.length h
      simp [renderLine] at this
  · rintro rfl; rfl

/-! ## Totality of the scan -/

theorem buffer_grow_wrap (buf : Buffer) (n : Nat) :
    buffer_grow buf (wrap n) =
      .ok { buf with data := realloc buf.data (wrap n), capacity := wrap n } := by
  have h := wrap_le n
  unfold buffer_grow
  rw [if_neg (by omega)]

theorem grow_if_short_total (st : Logged) (need n : Nat) :
    ∃ st2, grow_if_short st need (wrap n) = .ok st2 := by
  unfold grow_if_short
  rw [buffer_grow_wrap]
  split <;> exact ⟨_, rfl⟩

theorem append_line_total (flags : Flags) (st : Logged) (data : List Nat) (line_len : Nat) :
    ∃ st2, append_line flags st data line_len = .ok st2 := by
  have h1 : ∃ st1, append_number flags st line_len = .ok st1 := by
    unfold append_number
    split
    · obtain ⟨g, hg⟩ := grow_if_short_total st
        (decimal (wrap (st.1.line_count + 1)) ++ [9]).length
        (st.1.capacity * 2 + (decimal (wrap (st.1.line_count + 1)) ++ [9]).length + 1)
      simp only [bind, Except.bind, hg, pure, Except.pure]
      exact ⟨_, rfl⟩
    · exact ⟨st, rfl⟩
  obtain ⟨st1, h1⟩ := h1
  have h2 : ∃ st2, append_copy st1 data line_len = .ok st2 := by
    unfold append_copy
    obtain ⟨g, hg⟩ := grow_if_short_total st1 line_len (st1.1.capacity * 2 + line_len + 1)
    simp only [bind, Except.bind, hg, pure, Except.pure]
    exact ⟨_, rfl⟩
  obtain ⟨st2, h2⟩ := h2
  have h3 : ∃ st3, append_end flags st2 = .ok st3 := by
    unfold append_end
    split
    · obtain ⟨g, hg⟩ := grow_if_short_total st2 1 (st2.1.capacity * 2 + 1)
      simp only [bind, Except.bind, hg, pure, Except.pure]
      exact ⟨_, rfl⟩
    · exact ⟨st2, rfl⟩
  obtain ⟨st3, h3⟩ := h3
  unfold append_line
  simp only [bind, Except.bind, h1, h2, h3]
  exact ⟨st3, rfl⟩

theorem squeeze_step_lands (flags : Flags) (pre c : List Nat) (ls : List (List Nat))
    (h10 : 10 ∉ c) (h0 : 0 ∉ c) (hls : ∀ x ∈ ls, IsLine x) :
    ∃ (j : Nat) (ls2 : List (List Nat)),
      squeeze_step flags (pre ++ ((c ++ [10]) :: ls).flatten) pre.length = pre.length + j ∧
      pre ++ ((c ++ [10]) :: ls).flatten =
        (pre ++ List.replicate j 10) ++ ((c ++ [10]) ++ ls2.flatten) ∧
      (∀ x ∈ ls2, IsLine x) ∧ ls2.length ≤ ls.length ∧
      ((flags.squeeze_blank = SQUEEZE_BLANK_LINES ∧
          (pre ++ ((c ++ [10]) :: ls).flatten).getD pre.length 0 = 10) →
        skip_newlines ((pre ++ ((c ++ [10]) :: ls).flatten).drop pre.length) pre.length =
          pre.length + j + 1) := by
  have hl : IsLine (c ++ [10]) := ⟨c, rfl, h10, h0⟩
  unfold squeeze_step
  rw [getD_append_length, List.flatten_cons, List.drop_left]
  have hhead := hl.head_eq_newline ls.flatten
  by_cases hq : flags.squeeze_blank = SQUEEZE_BLANK_LINES ∧ c ++ [10] = [10]
  · rw [if_pos ⟨hq.1, hhead.2 hq.2⟩]
    obtain ⟨hs, hc⟩ := hq
    rw [hc]
    obtain ⟨j, ls2, rfl, h2⟩ := blank_run ls
    have hls2 : ∀ x ∈ ls2, IsLine x := fun x hx => hls x (List.mem_append_right _ hx)
    have hrun : [10] ++ (List.replicate j [10] ++ ls2).flatten =
        List.replicate (j + 1) 10 ++ ls2.flatten := by
      rw [flatten_run, List.replicate_succ]; rfl
    have hskip := skip_newlines_run (j + 1) ls2.flatten pre.length
      (head_flatten_ne ls2 hls2 h2)
    refine ⟨j, ls2, ?_, ?_, hls2, by simp, ?_⟩
    · rw [hrun, hskip]; omega
    · rw [hrun, List.replicate_succ']
      simp only [List.append_assoc]
    · intro _
      rw [hrun, hskip]; omega
  · rw [if_neg (fun h => hq ⟨h.1, hhead.1 h.2⟩)]
    refine ⟨0, ls, rfl, by simp, hls, Nat.le_refl _, ?_⟩
    intro h
    exact absurd ⟨h.1, hhead.1 h.2⟩ hq

theorem scan_total (flags : Flags) (fuel : Nat) :
    ∀ (pre : List Nat) (ls : List (List Nat)) (st : Logged),
      (∀ x ∈ ls, IsLine x) → ls.length ≤ fuel →
      ∃ st2, scan flags (pre ++ ls.flatten) fuel pre.length st = .ok st2 := by
  induction fuel with
  | zero =>
    intro pre ls st _ hfuel
    have : ls = [] := List.length_eq_zero.1 (by omega)
    subst this
    exact ⟨st, by simp [scan]⟩
  | succ fuel ih =>
    intro pre ls st hls hfuel
    cases ls with
    | nil => exact ⟨st, by simp [scan]⟩
    | cons l ls =>
      have hl := hls l (List.mem_cons_self _ _)
      have hls1 : ∀ x ∈ ls, IsLine x := fun x hx => hls x (List.mem_cons_of_mem _ hx)
      have hne : ¬ (pre ++ (l :: ls).flatten).getD pre.length 0 = 0 := by
        rw [getD_append_length, List.flatten_cons]
        exact hl.head_ne_zero _
      obtain ⟨c, rfl, h10, h0⟩ := hl
      obtain ⟨j, ls2, hstep, hsrc, hls2, hlen, -⟩ := squeeze_step_lands flags pre c ls h10 h0 hls1
      have hpos : pre.length + j = (pre ++ List.replicate j 10).length := by simp
      obtain ⟨st1, h1⟩ := append_line_total flags st (c ++ [10] ++ ls2.flatten) (c.length + 1)
      have hbody : scan_body flags (pre ++ ((c ++ [10]) :: ls).flatten) pre.length st =
          .ok ((pre ++ List.replicate j 10 ++ (c ++ [10])).length, st1) := by
        unfold scan_body
        simp only [hstep]
        rw [hsrc, hpos, List.drop_left, strchr_line c _ h10 h0]
        simp only [h1]
        congr 2
        simp only [List.length_append, List.length_singleton]
      obtain ⟨st2, h2⟩ := ih (pre ++ List.replicate j 10 ++ (c ++ [10])) ls2 st1 hls2
        (by simp only [List.length_cons] at hfuel; omega)
      refine ⟨st2, ?_⟩
      rw [scan, if_neg hne, hbody]
      simp only
      rw [hsrc, ← List.append_assoc]
      exact h2

theorem scan_mono (flags : Flags) (src : List Nat) (fuel k : Nat) :
    ∀ (data : Nat) (st r : Logged), scan flags src fuel data st = .ok r →
      scan flags src (fuel + k) data st = .ok r := by
  induction fuel with
  | zero =>
    intro data st r h
    rw [scan] at h
    split at h
    · rename_i h0
      cases k with
      | zero => rw [scan, if_pos h0]; exact h
      | succ k => rw [Nat.zero_add, scan, if_pos h0]; exact h
    · simp at h
  | succ fuel ih =>
    intro data st r h
    rw [scan] at h
    rw [Nat.add_right_comm, scan]
    split at h
    · rename_i h0
      rw [if_pos h0]; exact h
    · rename_i h0
      rw [if_neg h0]
      rcases hb : scan_body flags src data st with e | ⟨d2, st2⟩
      · rw [hb] at h; simp at h
      · rw [hb] at h
        exact ih d2 st2 r h

theorem length_le_flatten (ls : List (List Nat)) (hls : ∀ x ∈ ls, IsLine x) :
    ls.length ≤ ls.flatten.length := by
  induction ls with
  | nil => simp
  | cons l ls ih =>
    have := (hls l (List.mem_cons_self _ _)).length_pos
    have := ih (fun x hx => hls x (List.mem_cons_of_mem _ hx))
    simp only [List.length_cons, List.flatten_cons, List.length_append]
    omega

theorem boundary_facts (flags : Flags) (pre : List Nat) (ls : List (List Nat))
    (hls : ∀ x ∈ ls, IsLine x) (hne : (pre ++ ls.flatten).getD pre.length 0 ≠ 0) :
    ∃ (j : Nat) (c : List Nat) (ls2 : List (List Nat)),
      squeeze_step flags (pre ++ ls.flatten) pre.length = pre.length + j ∧
      pre ++ ls.flatten = (pre ++ List.replicate j 10 ++ (c ++ [10])) ++ ls2.flatten ∧
      (∀ x ∈ ls2, IsLine x) ∧
      strchr ((pre ++ ls.flatten).drop (pre.length + j)) 10 = some c.length ∧
      ((flags.squeeze_blank = SQUEEZE_BLANK_LINES ∧
          (pre ++ ls.flatten).getD pre.length 0 = 10) →
        skip_newlines ((pre ++ ls.flatten).drop pre.length) pre.length = pre.length + j + 1 ∧
        (pre ++ ls.flatten).getD (pre.length + j) 0 = 10) := by
  cases ls with
  | nil => simp at hne
  | cons l ls =>
    have hl := hls l (List.mem_cons_self _ _)
    have hls1 : ∀ x ∈ ls, IsLine x := fun x hx => hls x (List.mem_cons_of_mem _ hx)
    have hhead := hl.head_eq_newline ls.flatten
    obtain ⟨c, rfl, h10, h0⟩ := hl
    obtain ⟨j, ls2, hstep, hsrc, hls2, -, hskip⟩ := squeeze_step_lands flags pre c ls h10 h0 hls1
    have hpos : pre.length + j = (pre ++ List.replicate j 10).length := by simp
    refine ⟨j, c, ls2, hstep, ?_, hls2, ?_, ?_⟩
    · rw [hsrc]; simp only [List.append_assoc]
    · rw [hsrc, hpos, List.drop_left, strchr_line c _ h10 h0]
    · intro hq
      refine ⟨hskip hq, ?_⟩
      have hc : c ++ [10] = [10] := by
        apply hhead.1
        have := hq.2
        rw [getD_append_length, List.flatten_cons] at this
        exact this
      rw [hsrc, hpos, getD_append_length, hc]
      rfl

theorem scanPos_boundary (flags : Flags) (src : List Nat) (ls0 : List (List Nat))
    (hsrc0 : src = ls0.flatten) (hls0 : ∀ x ∈ ls0, IsLine x) (data : Nat)
    (h : ScanPos flags src data) :
    ∃ (pre : List Nat) (ls : List (List Nat)),
      src = pre ++ ls.flatten ∧ data = pre.length ∧ ∀ x ∈ ls, IsLine x := by
  induction h with
  | start => exact ⟨[], ls0, by simpa using hsrc0, rfl, hls0⟩
  | step hprev hne hstr ih =>
    obtain ⟨pre, ls, hsrc, hdata, hls⟩ := ih
    subst hdata
    rw [hsrc] at hne hstr ⊢
    obtain ⟨j, c, ls2, hstep, hsplit, hls2, hfound, -⟩ := boundary_facts flags pre ls hls hne
    rw [hstep, hfound] at hstr
    simp only [Option.some.injEq] at hstr
    refine ⟨pre ++ List.replicate j 10 ++ (c ++ [10]), ls2, hsplit, ?_, hls2⟩
    rw [hstep, ← hstr]
    simp only [List.length_append, List.length_replicate, List.length_singleton]

/-! ## The claims -/

/-- C1: for every configuration, every starting counter value and every source
without NUL byte in which every line ends with a newline, the append adds to
the output text exactly the concatenation, over the lines that remain after
squeezing (when enabled) and in order, of: the decimal running counter and a
tab if the line satisfies the numbering predicate, the content of the line,
`$` if end-marking is enabled, the newline.  The buffer is well formed and no
`size_t` computation wraps. -/
theorem append_renders_kept_lines (out : Buffer) (flags : Flags) (s : List Nat)
    (hnul : NulFree s) (hnl : NewlineTerminated s) (hwf : out.WF) (hfit : NoWrap out flags s) :
    (output_append_with_flags out flags s).map (fun r => r.1.text) =
      .ok (out.text ++ render flags out.line_count (keptLines flags s)) := by
  obtain ⟨r, h, -, ht, -⟩ := append_ok out flags s hnul hnl hwf hfit
  rw [h]; exact congrArg Except.ok ht

theorem append_renders_kept_lines_witness :
    NulFree [10, 10, 97, 10, 10, 10, 98, 10] ∧
    NewlineTerminated [10, 10, 97, 10, 10, 10, 98, 10] ∧
    Buffer.WF ⟨4, 2, 8, [120, 10, 170, 170]⟩ ∧
    NoWrap ⟨4, 2, 8, [120, 10, 170, 170]⟩ ⟨2, 1, 1⟩ [10, 10, 97, 10, 10, 10, 98, 10] ∧
    (output_append_with_flags ⟨4, 2, 8, [120, 10, 170, 170]⟩ ⟨2, 1, 1⟩
        [10, 10, 97, 10, 10, 10, 98, 10]).map (fun r => r.1.text) =
      .ok ([120, 10] ++ render ⟨2, 1, 1⟩ 8 (keptLines ⟨2, 1, 1⟩ [10, 10, 97, 10, 10, 10, 98, 10])) :=
  ⟨by decide, by decide, by decide, by decide,
   append_renders_kept_lines _ _ _ (by decide) (by decide) (by decide) (by decide)⟩

/-- C2: with no flag set, for every source without NUL byte in which every
line ends with a newline, the output text afterwards is the previous output
text followed by the source and the running line counter is unchanged.  The
buffer is well formed and three times the final length is below `2 ^ 64`. -/
theorem append_without_flags_copies (out : Buffer) (s : List Nat)
    (hnul : NulFree s) (hnl : NewlineTerminated s) (hwf : out.WF)
    (hfit : 3 * (out.length + s.length) < 2 ^ 64) :
    (output_append_with_flags out ⟨0, 0, 0⟩ s).map (fun r => (r.1.text, r.1.line_count)) =
      .ok (out.text ++ s, out.line_count) := by
  have hls := splitLines_isLine s hnul hnl
  have hk : keptLines ⟨0, 0, 0⟩ s = splitLines s := by simp [keptLines, squeezed]
  have hr : render ⟨0, 0, 0⟩ out.line_count (keptLines ⟨0, 0, 0⟩ s) = s := by
    rw [hk, render_unmarked _ _ _ (by decide) (by decide) (by decide) hls, flatten_splitLines]
  obtain ⟨r, h, -, ht, -, hcnt, -⟩ := append_unnumbered_ok out ⟨0, 0, 0⟩ s hnul hnl hwf
    (by decide) (by decide) (by rw [hr]; exact hfit)
  rw [hr] at ht
  rw [h]
  show Except.ok (r.1.text, r.1.line_count) = _
  rw [ht, hcnt]

theorem append_without_flags_copies_witness :
    NulFree [97, 10, 98, 10] ∧ NewlineTerminated [97, 10, 98, 10] ∧
    Buffer.WF ⟨1, 0, 0, [170]⟩ ∧ 3 * (0 + [97, 10, 98, 10].length) < 2 ^ 64 ∧
    (output_append_with_flags ⟨1, 0, 0, [170]⟩ ⟨0, 0, 0⟩ [97, 10, 98, 10]).map
        (fun r => (r.1.text, r.1.line_count)) = .ok ([] ++ [97, 10, 98, 10], 0) :=
  ⟨by decide, by decide, by decide, by decide,
   append_without_flags_copies _ _ (by decide) (by decide) (by decide) (by decide)⟩

/-- C3 (failing input): handed the one-byte source "a", whose only line lacks
the trailing newline, the transformer does not append it: `strchr` returns
`NULL` and the length of the line is computed from that null pointer. -/
theorem append_unterminated_line_faults :
    output_append_with_flags ⟨256, 0, 0, List.replicate 256 FILLER⟩ ⟨0, 0, 0⟩ [97] =
      .error .null_line_end := by
  decide!

/-- C4: for every source without NUL byte in which every line ends with a
newline, seen as its stretches (non-blank lines and maximal runs of `k ≥ 1`
blank lines): with squeezing as the only flag the text appended is the source
with every run replaced by one blank line, the non-blank lines unchanged and
in order; with no flag all `k` blank lines of every run are kept.  The buffer
is well formed and three times the final length is below `2 ^ 64`. -/
theorem squeeze_collapses_blank_runs (out : Buffer) (s : List Nat)
    (hnul : NulFree s) (hnl : NewlineTerminated s) (hwf : out.WF)
    (hfit : 3 * (out.length + s.length) < 2 ^ 64) :
    StretchesOk (stretches (splitLines s)) ∧
    s = ((stretches (splitLines s)).map Stretch.source).flatten ∧
    (output_append_with_flags out ⟨0, 1, 0⟩ s).map (fun r => r.1.text) =
      .ok (out.text ++ ((stretches (splitLines s)).map Stretch.squeezedText).flatten) ∧
    (output_append_with_flags out ⟨0, 0, 0⟩ s).map (fun r => r.1.text) =
      .ok (out.text ++ ((stretches (splitLines s)).map Stretch.source).flatten) := by
  have hls := splitLines_isLine s hnul hnl
  have hsrc := stretches_source _ hls
  rw [flatten_splitLines] at hsrc
  refine ⟨stretches_ok _ hls, hsrc.symm, ?_, ?_⟩
  · have hk : keptLines ⟨0, 1, 0⟩ s = squeezeLines (splitLines s) := by
      simp [keptLines, squeezed]
    have hr : render ⟨0, 1, 0⟩ out.line_count (keptLines ⟨0, 1, 0⟩ s) =
        (squeezeLines (splitLines s)).flatten := by
      rw [hk]
      exact render_unmarked _ _ _ (by decide) (by decide) (by decide)
        (fun l hl => hls l (mem_squeezeLines _ l hl))
    have hle := length_squeezeLines_le (splitLines s)
    rw [flatten_splitLines] at hle
    obtain ⟨r, h, -, ht, -⟩ := append_unnumbered_ok out ⟨0, 1, 0⟩ s hnul hnl hwf
      (by decide) (by decide) (by rw [hr]; omega)
    rw [h, stretches_squeezed _ hls, ← hr]
    exact congrArg Except.ok ht
  · have hk : keptLines ⟨0, 0, 0⟩ s = splitLines s := by simp [keptLines, squeezed]
    have hr : render ⟨0, 0, 0⟩ out.line_count (keptLines ⟨0, 0, 0⟩ s) = s := by
      rw [hk, render_unmarked _ _ _ (by decide) (by decide) (by decide) hls, flatten_splitLines]
    obtain ⟨r, h, -, ht, -⟩ := append_unnumbered_ok out ⟨0, 0, 0⟩ s hnul hnl hwf
      (by decide) (by decide) (by rw [hr]; exact hfit)
    rw [h, hsrc, ← hr]
    exact congrArg Except.ok ht

theorem squeeze_collapses_blank_runs_witness :
    NulFree [97, 10, 10, 10, 98, 10] ∧ NewlineTerminated [97, 10, 10, 10, 98, 10] ∧
    Buffer.WF ⟨1, 0, 0, [170]⟩ ∧ 3 * (0 + [97, 10, 10, 10, 98, 10].length) < 2 ^ 64 ∧
    (StretchesOk (stretches (splitLines [97, 10, 10, 10, 98, 10])) ∧
    [97, 10, 10, 10, 98, 10] =
      ((stretches (splitLines [97, 10, 10, 10, 98, 10])).map Stretch.source).flatten ∧
    (output_append_with_flags ⟨1, 0, 0, [170]⟩ ⟨0, 1, 0⟩ [97, 10, 10, 10, 98, 10]).map
        (fun r => r.1.text) =
      .ok ([] ++ ((stretches (splitLines [97, 10, 10, 10, 98, 10])).map
        Stretch.squeezedText).flatten) ∧
    (output_append_with_flags ⟨1, 0, 0, [170]⟩ ⟨0, 0, 0⟩ [97, 10, 10, 10, 98, 10]).map
        (fun r => r.1.text) =
      .ok ([] ++ ((stretches (splitLines [97, 10, 10, 10, 98, 10])).map
        Stretch.source).flatten)) :=
  ⟨by decide, by decide, by decide, by decide,
   squeeze_collapses_blank_runs _ _ (by decide) (by decide) (by decide) (by decide)⟩

/-- C5: with "number all lines" as the only flag, for every source without
NUL byte whose lines `l_1 .. l_n` all end with a newline and every starting
counter `c`, the append adds the concatenation for `i = 1 .. n` of the decimal
digits of `c + i`, one tab and `l_i`, and leaves the counter at `c + n`.  The
buffer is well formed and no `size_t` computation wraps. -/
theorem number_all_lines (out : Buffer) (s : List Nat)
    (hnul : NulFree s) (hnl : NewlineTerminated s) (hwf : out.WF)
    (hfit : NoWrap out ⟨1, 0, 0⟩ s) :
    (output_append_with_flags out ⟨1, 0, 0⟩ s).map (fun r => (r.1.text, r.1.line_count)) =
      .ok (out.text ++ (((splitLines s).enumFrom 1).map
            (fun p => decimal (out.line_count + p.1) ++ [9] ++ p.2)).flatten,
           out.line_count + (splitLines s).length) := by
  have hls := splitLines_isLine s hnul hnl
  have hk : keptLines ⟨1, 0, 0⟩ s = splitLines s := by simp [keptLines, squeezed]
  obtain ⟨r, h, -, ht, -, hc, -⟩ := append_ok out ⟨1, 0, 0⟩ s hnul hnl hwf hfit
  rw [hk] at ht hc
  rw [numberedCount_all] at hc
  have hr := render_number_all out.line_count 0 _ hls
  rw [Nat.add_zero, Nat.zero_add] at hr
  rw [hr] at ht
  rw [h]
  show Except.ok (r.1.text, r.1.line_count) = _
  rw [ht, hc]

theorem number_all_lines_witness :
    NulFree [97, 10, 98, 10] ∧ NewlineTerminated [97, 10, 98, 10] ∧
    Buffer.WF ⟨1, 0, 0, [170]⟩ ∧ NoWrap ⟨1, 0, 0, [170]⟩ ⟨1, 0, 0⟩ [97, 10, 98, 10] ∧
    (output_append_with_flags ⟨1, 0, 0, [170]⟩ ⟨1, 0, 0⟩ [97, 10, 98, 10]).map
        (fun r => (r.1.text, r.1.line_count)) =
      .ok ([] ++ (((splitLines [97, 10, 98, 10]).enumFrom 1).map
            (fun p => decimal (0 + p.1) ++ [9] ++ p.2)).flatten,
           0 + (splitLines [97, 10, 98, 10]).length) :=
  ⟨by decide, by decide, by decide, by decide,
   number_all_lines _ _ (by decide) (by decide) (by decide) (by decide)⟩

/-- C6: with "number non-blank lines only" as the only flag, for every source
without NUL byte in which every line ends with a newline, the append copies
every blank line without prefix and without advancing the counter, and puts
the decimal digits of `c + j` and a tab before the `j`-th non-blank line, `c`
being the starting counter; the counter ends at `c` plus the number of
non-blank lines.  The buffer is well formed and no `size_t` computation
wraps. -/
theorem number_nonblank_lines (out : Buffer) (s : List Nat)
    (hnul : NulFree s) (hnl : NewlineTerminated s) (hwf : out.WF)
    (hfit : NoWrap out ⟨2, 0, 0⟩ s) :
    (output_append_with_flags out ⟨2, 0, 0⟩ s).map (fun r => (r.1.text, r.1.line_count)) =
      .ok (out.text ++ numberNonblank out.line_count (splitLines s),
           out.line_count + ((splitLines s).filter (fun l => decide (l ≠ [10]))).length) := by
  have hls := splitLines_isLine s hnul hnl
  have hk : keptLines ⟨2, 0, 0⟩ s = splitLines s := by simp [keptLines, squeezed]
  obtain ⟨r, h, -, ht, -, hc, -⟩ := append_ok out ⟨2, 0, 0⟩ s hnul hnl hwf hfit
  rw [hk] at ht hc
  rw [numberedCount_nonblank _ hls] at hc
  rw [render_number_nonblank _ _ hls] at ht
  rw [h]
  show Except.ok (r.1.text, r.1.line_count) = _
  rw [ht, hc]

theorem number_nonblank_lines_witness :
    NulFree [10, 97, 10] ∧ NewlineTerminated [10, 97, 10] ∧
    Buffer.WF ⟨1, 0, 0, [170]⟩ ∧ NoWrap ⟨1, 0, 0, [170]⟩ ⟨2, 0, 0⟩ [10, 97, 10] ∧
    (output_append_with_flags ⟨1, 0, 0, [170]⟩ ⟨2, 0, 0⟩ [10, 97, 10]).map
        (fun r => (r.1.text, r.1.line_count)) =
      .ok ([] ++ numberNonblank 0 (splitLines [10, 97, 10]),
           0 + ((splitLines [10, 97, 10]).filter (fun l => decide (l ≠ [10]))).length) :=
  ⟨by decide, by decide, by decide, by decide,
   number_nonblank_lines _ _ (by decide) (by decide) (by decide) (by decide)⟩

/-- C7: with end-marking as the only flag, for every source without NUL byte
in which every line ends with a newline, the append adds the source with the
trailing newline of every line, blank lines included, replaced by `$` and a
newline; the text added is as long as the source plus its number of lines,
and the counter is unchanged.  The buffer is well formed and three times the
final length is below `2 ^ 64`. -/
theorem show_ends_marks_every_line (out : Buffer) (s : List Nat)
    (hnul : NulFree s) (hnl : NewlineTerminated s) (hwf : out.WF)
    (hfit : 3 * (out.length + (s.length + (splitLines s).length)) < 2 ^ 64) :
    (output_append_with_flags out ⟨0, 0, 1⟩ s).map
        (fun r => (r.1.text, r.1.length, r.1.line_count)) =
      .ok (out.text ++ ((splitLines s).map (fun l => l.dropLast ++ [36, 10])).flatten,
           out.length + (s.length + (splitLines s).length), out.line_count) := by
  have hls := splitLines_isLine s hnul hnl
  have hk : keptLines ⟨0, 0, 1⟩ s = splitLines s := by simp [keptLines, squeezed]
  have hlen := length_marked _ hls
  rw [flatten_splitLines] at hlen
  have hr : render ⟨0, 0, 1⟩ out.line_count (keptLines ⟨0, 0, 1⟩ s) =
      ((splitLines s).map (fun l => l.dropLast ++ [36, 10])).flatten := by
    rw [hk, render_show_ends]
  obtain ⟨r, h, -, ht, hl, hc, -⟩ := append_unnumbered_ok out ⟨0, 0, 1⟩ s hnul hnl hwf
    (by decide) (by decide) (by rw [hr, hlen]; exact hfit)
  rw [hr] at ht hl
  rw [hlen] at hl
  rw [h]
  show Except.ok (r.1.text, r.1.length, r.1.line_count) = _
  rw [ht, hl, hc]

theorem show_ends_marks_every_line_witness :
    NulFree [97, 10, 10] ∧ NewlineTerminated [97, 10, 10] ∧ Buffer.WF ⟨1, 0, 0, [170]⟩ ∧
    3 * (0 + ([97, 10, 10].length + (splitLines [97, 10, 10]).length)) < 2 ^ 64 ∧
    (output_append_with_flags ⟨1, 0, 0, [170]⟩ ⟨0, 0, 1⟩ [97, 10, 10]).map
        (fun r => (r.1.text, r.1.length, r.1.line_count)) =
      .ok ([] ++ ((splitLines [97, 10, 10]).map (fun l => l.dropLast ++ [36, 10])).flatten,
           0 + ([97, 10, 10].length + (splitLines [97, 10, 10]).length), 0) :=
  ⟨by decide, by decide, by decide, by decide,
   show_ends_marks_every_line _ _ (by decide) (by decide) (by decide) (by decide)⟩

/-- C8: numbering continues across sources.  For every configuration with
squeezing disabled (numbering enabled or not) and all sources `s1`, `s2`
without NUL byte in which every line ends with a newline, appending `s1` and
then `s2` to the same buffer gives the same output text and the same final
counter as appending `s1 ++ s2` once: the lines of `s2` are rendered with the
counter left by `s1`, so the first number of `s2` is one more than the last
number of `s1`.  The buffer is well formed and no `size_t` computation
wraps. -/
theorem numbering_continues_across_sources (out : Buffer) (flags : Flags) (s1 s2 : List Nat)
    (hnul1 : NulFree s1) (hnl1 : NewlineTerminated s1)
    (hnul2 : NulFree s2) (hnl2 : NewlineTerminated s2) (hwf : out.WF)
    (hsq : flags.squeeze_blank ≠ 1) (hfit : NoWrap out flags (s1 ++ s2)) :
    (output_append_with_flags out flags (s1 ++ s2)).map (fun r => (r.1.text, r.1.line_count)) =
      .ok (out.text ++ (render flags out.line_count (splitLines s1) ++
            render flags (out.line_count + numberedCount flags (splitLines s1)) (splitLines s2)),
           out.line_count + numberedCount flags (splitLines s1) +
            numberedCount flags (splitLines s2)) ∧
    ((output_append_with_flags out flags s1).bind
        (fun r1 => output_append_with_flags r1.1 flags s2)).map
        (fun r => (r.1.text, r.1.line_count)) =
      .ok (out.text ++ (render flags out.line_count (splitLines s1) ++
            render flags (out.line_count + numberedCount flags (splitLines s1)) (splitLines s2)),
           out.line_count + numberedCount flags (splitLines s1) +
            numberedCount flags (splitLines s2)) := by
  have hk : ∀ s, keptLines flags s = splitLines s := by
    intro s; simp [keptLines, squeezed, hsq]
  have hnul : NulFree (s1 ++ s2) := by
    unfold NulFree at *
    simp [hnul1, hnul2]
  have hsplit := splitLines_append s1 s2 hnul1 hnl1 hnul2 hnl2
  have hnl : NewlineTerminated (s1 ++ s2) := by
    unfold NewlineTerminated at *
    rw [hsplit]
    intro l hl
    rcases List.mem_append.1 hl with hl | hl
    · exact hnl1 l hl
    · exact hnl2 l hl
  obtain ⟨hf1, hf2⟩ := hfit
  rw [hk, hsplit, render_append, List.length_append] at hf1
  rw [hk, hsplit, numberedCount_append] at hf2
  constructor
  · obtain ⟨r, h, -, ht, -, hc, -⟩ := append_ok out flags (s1 ++ s2) hnul hnl hwf
      ⟨by rw [hk, hsplit, render_append, List.length_append]; exact hf1,
       by rw [hk, hsplit, numberedCount_append]; exact hf2⟩
    rw [hk, hsplit, render_append] at ht
    rw [hk, hsplit, numberedCount_append, ← Nat.add_assoc] at hc
    rw [h]
    show Except.ok (r.1.text, r.1.line_count) = _
    rw [ht, hc]
  · obtain ⟨r1, h1, hwf1, ht1, hl1, hc1, -⟩ := append_ok out flags s1 hnul1 hnl1 hwf
      ⟨by rw [hk]; omega, by rw [hk]; omega⟩
    rw [hk] at ht1 hl1 hc1
    obtain ⟨r2, h2, -, ht2, -, hc2, -⟩ := append_ok r1.1 flags s2 hnul2 hnl2 hwf1
      ⟨by rw [hk, hl1, hc1]; omega, by rw [hk, hc1]; omega⟩
    rw [hk, ht1, hc1, List.append_assoc] at ht2
    rw [hk, hc1] at hc2
    rw [h1]
    show (output_append_with_flags r1.1 flags s2).map (fun r => (r.1.text, r.1.line_count)) = _
    rw [h2]
    show Except.ok (r2.1.text, r2.1.line_count) = _
    rw [ht2, hc2]

theorem numbering_continues_across_sources_witness :
    NulFree [97, 10] ∧ NewlineTerminated [97, 10] ∧ NulFree [10, 98, 10] ∧
    NewlineTerminated [10, 98, 10] ∧ Buffer.WF ⟨1, 0, 0, [170]⟩ ∧
    (⟨2, 0, 1⟩ : Flags).squeeze_blank ≠ 1 ∧
    NoWrap ⟨1, 0, 0, [170]⟩ ⟨2, 0, 1⟩ ([97, 10] ++ [10, 98, 10]) ∧
    ((output_append_with_flags ⟨1, 0, 0, [170]⟩ ⟨2, 0, 1⟩ ([97, 10] ++ [10, 98, 10])).map
        (fun r => (r.1.text, r.1.line_count)) =
      .ok ([] ++ (render ⟨2, 0, 1⟩ 0 (splitLines [97, 10]) ++
            render ⟨2, 0, 1⟩ (0 + numberedCount ⟨2, 0, 1⟩ (splitLines [97, 10]))
              (splitLines [10, 98, 10])),
           0 + numberedCount ⟨2, 0, 1⟩ (splitLines [97, 10]) +
            numberedCount ⟨2, 0, 1⟩ (splitLines [10, 98, 10])) ∧
    ((output_append_with_flags ⟨1, 0, 0, [170]⟩ ⟨2, 0, 1⟩ [97, 10]).bind
        (fun r1 => output_append_with_flags r1.1 ⟨2, 0, 1⟩ [10, 98, 10])).map
        (fun r => (r.1.text, r.1.line_count)) =
      .ok ([] ++ (render ⟨2, 0, 1⟩ 0 (splitLines [97, 10]) ++
            render ⟨2, 0, 1⟩ (0 + numberedCount ⟨2, 0, 1⟩ (splitLines [97, 10]))
              (splitLines [10, 98, 10])),
           0 + numberedCount ⟨2, 0, 1⟩ (splitLines [97, 10]) +
            numberedCount ⟨2, 0, 1⟩ (splitLines [10, 98, 10]))) :=
  ⟨by decide, by decide, by decide, by decide, by decide, by decide, by decide,
   numbering_continues_across_sources _ _ _ _ (by decide) (by decide) (by decide) (by decide)
     (by decide) (by decide) (by decide)⟩

/-- C9: for every configuration and every source without NUL byte in which
every line ends with a newline, the lines appended with a number in front are
the lines, among those that remain after squeezing when it is enabled, that
satisfy the numbering predicate, and the running line counter grows by their
number: all of them for "all", those longer than a bare newline for
"non-blank", none when numbering is off.  The buffer is well formed and no
`size_t` computation wraps. -/
theorem counter_grows_by_numbered_lines (out : Buffer) (flags : Flags) (s : List Nat)
    (hnul : NulFree s) (hnl : NewlineTerminated s) (hwf : out.WF) (hfit : NoWrap out flags s) :
    (output_append_with_flags out flags s).map (fun r => (r.1.text, r.1.line_count)) =
      .ok (out.text ++ render flags out.line_count (keptLines flags s),
           out.line_count + numberedCount flags (keptLines flags s)) ∧
    (flags.number = 1 → numberedCount flags (keptLines flags s) = (keptLines flags s).length) ∧
    (flags.number = 2 → numberedCount flags (keptLines flags s) =
      ((keptLines flags s).filter (fun l => decide (l.length > 1))).length) ∧
    (flags.number ≠ 1 → flags.number ≠ 2 → numberedCount flags (keptLines flags s) = 0) := by
  refine ⟨?_, ?_, ?_, ?_⟩
  · obtain ⟨r, h, -, ht, -, hc, -⟩ := append_ok out flags s hnul hnl hwf hfit
    rw [h]
    show Except.ok (r.1.text, r.1.line_count) = _
    rw [ht, hc]
  · intro h1
    unfold numberedCount
    rw [List.filter_eq_self.2 (fun l _ => by simp [numbered, h1])]
  · intro h2
    unfold numberedCount
    congr 1
    apply List.filter_congr
    intro l _
    simp [numbered, h2]
  · intro h1 h2
    exact numberedCount_off flags _ h1 h2

theorem counter_grows_by_numbered_lines_witness :
    NulFree [10, 10, 97, 10, 10, 10, 98, 10] ∧
    NewlineTerminated [10, 10, 97, 10, 10, 10, 98, 10] ∧
    Buffer.WF ⟨4, 2, 8, [120, 10, 170, 170]⟩ ∧
    NoWrap ⟨4, 2, 8, [120, 10, 170, 170]⟩ ⟨1, 1, 0⟩ [10, 10, 97, 10, 10, 10, 98, 10] ∧
    ((output_append_with_flags ⟨4, 2, 8, [120, 10, 170, 170]⟩ ⟨1, 1, 0⟩
        [10, 10, 97, 10, 10, 10, 98, 10]).map (fun r => (r.1.text, r.1.line_count)) =
      .ok ([120, 10] ++
            render ⟨1, 1, 0⟩ 8 (keptLines ⟨1, 1, 0⟩ [10, 10, 97, 10, 10, 10, 98, 10]),
           8 + numberedCount ⟨1, 1, 0⟩ (keptLines ⟨1, 1, 0⟩ [10, 10, 97, 10, 10, 10, 98, 10])) ∧
    ((⟨1, 1, 0⟩ : Flags).number = 1 →
      numberedCount ⟨1, 1, 0⟩ (keptLines ⟨1, 1, 0⟩ [10, 10, 97, 10, 10, 10, 98, 10]) =
        (keptLines ⟨1, 1, 0⟩ [10, 10, 97, 10, 10, 10, 98, 10]).length) ∧
    ((⟨1, 1, 0⟩ : Flags).number = 2 →
      numberedCount ⟨1, 1, 0⟩ (keptLines ⟨1, 1, 0⟩ [10, 10, 97, 10, 10, 10, 98, 10]) =
        ((keptLines ⟨1, 1, 0⟩ [10, 10, 97, 10, 10, 10, 98, 10]).filter
          (fun l => decide (l.length > 1))).length) ∧
    ((⟨1, 1, 0⟩ : Flags).number ≠ 1 → (⟨1, 1, 0⟩ : Flags).number ≠ 2 →
      numberedCount ⟨1, 1, 0⟩ (keptLines ⟨1, 1, 0⟩ [10, 10, 97, 10, 10, 10, 98, 10]) = 0)) :=
  ⟨by decide, by decide, by decide, by decide,
   counter_grows_by_numbered_lines _ _ _ (by decide) (by decide) (by decide) (by decide)⟩

/-- C10 (failing input): from the buffer that `main` creates (capacity 256,
length 0) and a source made of one line of 255 bytes and its newline, with no
flag set, the append ends with `length = capacity = 256`, and its last write,
the terminator, is the byte at offset 256 of an allocation of 256 bytes. -/
theorem terminator_written_past_capacity :
    (output_append_with_flags ⟨256, 0, 0, List.replicate 256 FILLER⟩ ⟨0, 0, 0⟩
        (List.replicate 255 97 ++ [10])).map (fun r => (r.1.length, r.1.capacity, r.2)) =
      .ok (256, 256, [⟨0, 256, 256⟩, ⟨256, 1, 256⟩]) ∧
    ¬ Write.inBounds ⟨256, 1, 256⟩ := by
  decide!

/-- C11: an empty source contributes nothing.  For every output buffer, every
configuration and every environment, an empty byte sequence given to
`output_append_with_flags` and a file of zero bytes given to
`output_append_file` both return without error a buffer whose capacity,
length and line counter are those of the old one and whose storage differs
only by the terminator written at offset `length` (the single write of the
log); the output text is unchanged. -/
theorem empty_source_contributes_nothing (w : World) (out : Buffer) (flags : Flags)
    (file_path : List Nat) (hfile : w.files.lookup file_path = some []) :
    output_append_with_flags out flags [] =
      .ok ({ out with data := store out.data out.length [0] },
           [⟨out.length, 1, out.capacity⟩]) ∧
    (output_append_file w out flags file_path).2 =
      .ok ({ out with data := store out.data out.length [0] },
           [⟨out.length, 1, out.capacity⟩]) ∧
    ({ out with data := store out.data out.length [0] } : Buffer).text = out.text := by
  refine ⟨rfl, ?_, ?_⟩
  · unfold output_append_file
    simp only [hfile]
    rfl
  · exact take_store_of_le _ _ _ _ (Nat.le_refl _)

theorem empty_source_contributes_nothing_witness :
    (⟨[], [([120], [])], []⟩ : World).files.lookup [120] = some [] ∧
    (output_append_with_flags ⟨2, 2, 1, [97, 10]⟩ ⟨1, 1, 1⟩ [] =
      .ok ({ (⟨2, 2, 1, [97, 10]⟩ : Buffer) with data := store [97, 10] 2 [0] },
           [⟨2, 1, 2⟩]) ∧
    (output_append_file ⟨[], [([120], [])], []⟩ ⟨2, 2, 1, [97, 10]⟩ ⟨1, 1, 1⟩ [120]).2 =
      .ok ({ (⟨2, 2, 1, [97, 10]⟩ : Buffer) with data := store [97, 10] 2 [0] },
           [⟨2, 1, 2⟩]) ∧
    ({ (⟨2, 2, 1, [97, 10]⟩ : Buffer) with data := store [97, 10] 2 [0] } : Buffer).text =
      (⟨2, 2, 1, [97, 10]⟩ : Buffer).text) :=
  ⟨by decide, empty_source_contributes_nothing _ _ _ _ (by decide)⟩

/-- C12: source selection in `main`.  For every environment and every argument
list whose flag tokens are all recognized, `main` prints the result of
reading, in order and with one configuration, the planned sources: standard
input alone when no argument is positional (the empty list included),
otherwise the positional arguments in command-line order, a bare `-` as
standard input and every other one as a named file; when `main` succeeds the
sources read are exactly those. -/
theorem main_reads_planned_sources (w : World) (argv : List (List Nat))
    (hrec : ∀ arg ∈ argv, isFlagToken arg = true → recognized arg = true) :
    (∃ flags, main w argv =
      printed (read_in_order flags (plannedSources argv) w initial_buffer)) ∧
    (argv.all isFlagToken = true → plannedSources argv = [Source.stdin]) ∧
    (argv.all isFlagToken = false →
      plannedSources argv = (argv.filter isPositional).map sourceOf) ∧
    ∀ w2 text, main w argv = (w2, .ok text) → w2.reads = w.reads ++ plannedSources argv := by
  have hfold := fold_flags (argv.filter isFlagToken) (by
    intro t ht
    rw [List.mem_filter] at ht
    exact hrec t ht.1 ht.2)
  have hmain := main_eq w argv
  rw [hfold] at hmain
  simp only at hmain
  refine ⟨⟨_, hmain⟩, ?_, ?_, ?_⟩
  · intro h; unfold plannedSources; rw [if_pos h]
  · intro h; unfold plannedSources; rw [if_neg (by rw [h]; decide)]
  · intro w2 text h
    rw [hmain] at h
    rcases hr : read_in_order (configOf (argv.filter isFlagToken)) (plannedSources argv) w
      initial_buffer with ⟨w3, e | b⟩
    · rw [hr] at h; simp [printed] at h
    · rw [hr] at h
      simp only [printed, Prod.mk.injEq] at h
      rw [← h.1]
      exact read_in_order_reads _ _ _ _ _ _ hr

theorem main_reads_planned_sources_witness :
    (∀ arg ∈ [[45, 110], [120], [45], [45, 69]],
      isFlagToken arg = true → recognized arg = true) ∧
    ((∃ flags, main ⟨[104, 10], [([120], [97, 10])], []⟩ [[45, 110], [120], [45], [45, 69]] =
      printed (read_in_order flags (plannedSources [[45, 110], [120], [45], [45, 69]])
        ⟨[104, 10], [([120], [97, 10])], []⟩ initial_buffer)) ∧
    (([[45, 110], [120], [45], [45, 69]] : List (List Nat)).all isFlagToken = true →
      plannedSources [[45, 110], [120], [45], [45, 69]] = [Source.stdin]) ∧
    (([[45, 110], [120], [45], [45, 69]] : List (List Nat)).all isFlagToken = false →
      plannedSources [[45, 110], [120], [45], [45, 69]] =
        ([[45, 110], [120], [45], [45, 69]].filter isPositional).map sourceOf) ∧
    ∀ w2 text, main ⟨[104, 10], [([120], [97, 10])], []⟩ [[45, 110], [120], [45], [45, 69]] =
        (w2, .ok text) →
      w2.reads = (⟨[104, 10], [([120], [97, 10])], []⟩ : World).reads ++
        plannedSources [[45, 110], [120], [45], [45, 69]]) :=
  ⟨by decide, main_reads_planned_sources _ _ (by decide)⟩

/-- C13: configuration from flags.  For every list of recognized flag tokens,
applying `flag_set` to them in order from the all-zero configuration gives:
as numbering mode that of the last `-n` or `-b` (none if neither occurs),
squeezing enabled iff `-s` occurs, end-marking enabled iff `-E` occurs; every
call of `flag_set` leaves alone the fields its flag does not name; and for
every argument list whose flag tokens are recognized `main` reads every source
with the configuration of all its flag tokens, wherever they stand. -/
theorem flags_build_configuration (w : World) (tokens argv : List (List Nat))
    (htok : ∀ t ∈ tokens, recognized t = true)
    (hrec : ∀ arg ∈ argv, isFlagToken arg = true → recognized arg = true) :
    List.foldlM flag_set ⟨0, 0, 0⟩ tokens =
      .ok ⟨numberingOf tokens, if [45, 115] ∈ tokens then 1 else 0,
           if [45, 69] ∈ tokens then 1 else 0⟩ ∧
    (∀ flags f t, flag_set flags t = .ok f →
      ((t = [45, 110] ∨ t = [45, 98]) →
        f.squeeze_blank = flags.squeeze_blank ∧ f.show_ends = flags.show_ends) ∧
      (t = [45, 115] → f.number = flags.number ∧ f.show_ends = flags.show_ends) ∧
      (t = [45, 69] → f.number = flags.number ∧ f.squeeze_blank = flags.squeeze_blank)) ∧
    main w argv = printed (read_in_order (configOf (argv.filter isFlagToken))
      (plannedSources argv) w initial_buffer) := by
  refine ⟨fold_flags tokens htok, fun flags f t h => flag_set_frame flags f t h, ?_⟩
  have hfold := fold_flags (argv.filter isFlagToken) (by
    intro t ht
    rw [List.mem_filter] at ht
    exact hrec t ht.1 ht.2)
  have hmain := main_eq w argv
  rw [hfold] at hmain
  exact hmain

theorem flags_build_configuration_witness :
    (∀ t ∈ [[45, 110], [45, 115], [45, 98]], recognized t = true) ∧
    (∀ arg ∈ [[120], [45, 69], [45], [45, 98]],
      isFlagToken arg = true → recognized arg = true) ∧
    (List.foldlM flag_set ⟨0, 0, 0⟩ [[45, 110], [45, 115], [45, 98]] =
      .ok ⟨numberingOf [[45, 110], [45, 115], [45, 98]],
           if [45, 115] ∈ [[45, 110], [45, 115], [45, 98]] then 1 else 0,
           if [45, 69] ∈ [[45, 110], [45, 115], [45, 98]] then 1 else 0⟩ ∧
    (∀ flags f t, flag_set flags t = .ok f →
      ((t = [45, 110] ∨ t = [45, 98]) →
        f.squeeze_blank = flags.squeeze_blank ∧ f.show_ends = flags.show_ends) ∧
      (t = [45, 115] → f.number = flags.number ∧ f.show_ends = flags.show_ends) ∧
      (t = [45, 69] → f.number = flags.number ∧ f.squeeze_blank = flags.squeeze_blank)) ∧
    main ⟨[104, 10], [([120], [97, 10])], []⟩ [[120], [45, 69], [45], [45, 98]] =
      printed (read_in_order (configOf ([[120], [45, 69], [45], [45, 98]].filter isFlagToken))
        (plannedSources [[120], [45, 69], [45], [45, 98]])
        ⟨[104, 10], [([120], [97, 10])], []⟩ initial_buffer)) :=
  ⟨by decide, by decide, flags_build_configuration _ _ _ (by decide) (by decide)⟩

/-- C14: invalid flags are rejected.  For every environment and argument list,
`main` ends with the invalid-flag error if and only if some argument begins
with `-`, is not exactly `-` and is not one of `-n`, `-b`, `-s`, `-E`; the
error comes from the flag loop, and the environment is then left as it was: no
source has been read. -/
theorem invalid_flag_rejected (w : World) (argv : List (List Nat)) :
    ((main w argv).2 = .error .invalid_flag ↔
      ∃ arg ∈ argv, isFlagToken arg = true ∧ recognized arg = false) ∧
    (parse_flags ⟨0, 0, 0⟩ 0 argv = .error .invalid_flag ↔
      ∃ arg ∈ argv, isFlagToken arg = true ∧ recognized arg = false) ∧
    ((main w argv).2 = .error .invalid_flag → (main w argv).1 = w) := by
  have hbad : (∃ arg ∈ argv, isFlagToken arg = true ∧ recognized arg = false) →
      List.foldlM flag_set ⟨0, 0, 0⟩ (argv.filter isFlagToken) = .error .invalid_flag := by
    rintro ⟨arg, hmem, hflag, hrec⟩
    exact fold_flags_error _ _ ⟨arg, List.mem_filter.2 ⟨hmem, hflag⟩, hrec⟩
  have hgood : (¬ ∃ arg ∈ argv, isFlagToken arg = true ∧ recognized arg = false) →
      List.foldlM flag_set ⟨0, 0, 0⟩ (argv.filter isFlagToken) =
        .ok (configOf (argv.filter isFlagToken)) := by
    intro hno
    apply fold_flags
    intro t ht
    rw [List.mem_filter] at ht
    by_contra hr
    exact hno ⟨t, ht.1, ht.2, by simpa using hr⟩
  have hmain := main_eq w argv
  have hmain_iff : (main w argv).2 = .error .invalid_flag ↔
      ∃ arg ∈ argv, isFlagToken arg = true ∧ recognized arg = false := by
    constructor
    · intro h
      by_contra hno
      rw [hmain, hgood hno] at h
      simp only at h
      rcases hr : read_in_order (configOf (argv.filter isFlagToken)) (plannedSources argv) w
        initial_buffer with ⟨w3, e | b⟩
      · rw [hr] at h
        simp only [printed, Except.error.injEq] at h
        have := read_in_order_fault _ _ _ _ e (by rw [hr])
        exact this h
      · rw [hr] at h
        simp [printed] at h
    · intro h
      rw [hmain, hbad h]
  refine ⟨hmain_iff, ?_, ?_⟩
  · rw [parse_flags_eq]
    constructor
    · intro h
      by_contra hno
      rw [hgood hno] at h
      simp [Except.map] at h
    · intro h
      rw [hbad h]; rfl
  · intro h
    rw [hmain, hbad (hmain_iff.1 h)]

/-- C15 (failing input): `buffer_grow` never reports an exceeded capacity for
a `size_t` argument, since no `size_t` is above `SIZE_MAX`.  With capacity and
length `2 ^ 63` and one byte needed, `2 * capacity + 1 + 1` exceeds `SIZE_MAX`,
and the growth the transformer asks for succeeds with the wrapped capacity
2. -/
theorem growth_wraps_instead_of_failing (data : List Nat) (log : List Write) :
    SIZE_MAX < 2 * 2 ^ 63 + 1 + 1 ∧
    grow_if_short (⟨2 ^ 63, 2 ^ 63, 0, data⟩, log) 1 (wrap (2 ^ 63 * 2 + 1 + 1)) =
      .ok (⟨2, 2 ^ 63, 0, realloc data 2⟩, log) ∧
    ∀ (buf : Buffer) (n : Nat), buffer_grow buf (wrap n) =
      .ok { buf with data := realloc buf.data (wrap n), capacity := wrap n } := by
  refine ⟨by decide, ?_, ?_⟩
  · have hw1 : wrap (2 ^ 63 + 1) = 2 ^ 63 + 1 := by decide
    have hw2 : wrap (2 ^ 63 * 2 + 1 + 1) = 2 := by decide
    have hlt : (2 : Nat) ^ 63 < 2 ^ 63 + 1 := by decide
    have hb : ¬ 2 > BUFFER_MAX_CAPACITY := by decide
    unfold grow_if_short buffer_grow
    simp only [hw1, hw2, hlt, hb, if_true, if_false]
  · intro buf n
    have h := wrap_le n
    unfold buffer_grow
    rw [if_neg (by omega)]

/-- C16 (failing input): with 256 bytes on standard input (a line of 255
bytes and its newline) the reader fills its 256-byte buffer without growing
it, and the terminator is then written at offset 256, with `length = capacity
= 256`. -/
theorem stdin_terminator_written_past_capacity :
    (read_stdin ⟨List.replicate 255 97 ++ [10], [], []⟩).2.map
        (fun r => (r.1.length, r.1.capacity, r.2.getLast?)) =
      .ok (256, 256, some ⟨256, 1, 256⟩) ∧
    ¬ Write.inBounds ⟨256, 1, 256⟩ := by
  decide!

/-- C17 (counterexample): before the end marker, `n = 1`, the buffer of 256
bytes that holds a line of 256 bytes grows to 513 bytes, not to
`2 * 256 + 1 + 1`; the whole append of that line with end-marking from the
buffer of `main` ends with capacity 513. -/
theorem end_marker_growth_is_double_plus_one :
    (append_end ⟨0, 0, 1⟩ (⟨256, 256, 0, List.replicate 255 97 ++ [10]⟩, [])).map
        (fun r => r.1.capacity) = .ok 513 ∧
    (output_append_with_flags initial_buffer ⟨0, 0, 1⟩ (List.replicate 255 97 ++ [10])).map
        (fun r => r.1.capacity) = .ok 513 ∧
    513 ≠ 2 * 256 + 1 + 1 := by
  decide!

/-- C17 (amended): growth policy.  From a well-formed buffer and absent word
overflow, a growth before the number prefix or before the line, of `n` bytes,
sets the capacity to `2 * capacity + n + 1`, and a growth before the end
marker sets it to `2 * capacity + 1`; in each case the new capacity is at
least `length + n + 1`, so the bytes and a terminator fit, a step that does
not grow leaves the capacity alone, and the capacity never decreases, in a
step or in a whole append. -/
theorem growth_policy (flags : Flags) (st : Logged) (data : List Nat) (line_len : Nat)
    (hwf : st.1.WF) :
    (flags.number = NUMBER_LINES ∨ (flags.number = NUMBER_NONBLANK_LINES ∧ line_len > 1) →
      st.1.length + (decimal (wrap (st.1.line_count + 1)) ++ [9]).length < 2 ^ 64 →
      2 * st.1.capacity + (decimal (wrap (st.1.line_count + 1)) ++ [9]).length + 1 < 2 ^ 64 →
      ∃ st2, append_number flags st line_len = .ok st2 ∧
        Grows st st2 (decimal (wrap (st.1.line_count + 1)) ++ [9]).length
          (2 * st.1.capacity + (decimal (wrap (st.1.line_count + 1)) ++ [9]).length + 1)) ∧
    (st.1.length + line_len < 2 ^ 64 → 2 * st.1.capacity + line_len + 1 < 2 ^ 64 →
      ∃ st2, append_copy st data line_len = .ok st2 ∧
        Grows st st2 line_len (2 * st.1.capacity + line_len + 1)) ∧
    (flags.show_ends = 1 → 1 ≤ st.1.length → st.1.length + 1 < 2 ^ 64 →
      2 * st.1.capacity + 1 < 2 ^ 64 →
      ∃ st2, append_end flags st = .ok st2 ∧ Grows st st2 1 (2 * st.1.capacity + 1)) ∧
    (∀ out s, NulFree s → NewlineTerminated s → out.WF → NoWrap out flags s →
      ∃ r, output_append_with_flags out flags s = .ok r ∧ out.capacity ≤ r.1.capacity) := by
  have hsz := size_eq
  have hle := hwf.2
  refine ⟨?_, ?_, ?_, ?_⟩
  · intro hnum hlen hno
    generalize hstr : decimal (wrap (st.1.line_count + 1)) ++ [9] = str at hlen hno ⊢
    have hw : wrap (st.1.capacity * 2 + str.length + 1) = 2 * st.1.capacity + str.length + 1 := by
      rw [wrap_of_lt (by omega)]; omega
    obtain ⟨st1, hg, hgrow, -, -⟩ := grow_if_short_grows st str.length
      (2 * st.1.capacity + str.length + 1) hlen (by unfold BUFFER_MAX_CAPACITY; omega)
      (by intro _; omega) (by intro _; omega)
    unfold append_number
    rw [if_pos hnum]
    simp only [hstr, hw, bind, Except.bind, hg, pure, Except.pure]
    exact ⟨_, rfl, hgrow.of_capacity rfl⟩
  · intro hlen hno
    have hw : wrap (st.1.capacity * 2 + line_len + 1) = 2 * st.1.capacity + line_len + 1 := by
      rw [wrap_of_lt (by omega)]; omega
    obtain ⟨st1, hg, hgrow, -, -⟩ := grow_if_short_grows st line_len
      (2 * st.1.capacity + line_len + 1) hlen (by unfold BUFFER_MAX_CAPACITY; omega)
      (by intro _; omega) (by intro _; omega)
    unfold append_copy
    simp only [hw, bind, Except.bind, hg, pure, Except.pure]
    exact ⟨_, rfl, hgrow.of_capacity rfl⟩
  · intro hs hpos hlen hno
    have hw : wrap (st.1.capacity * 2 + 1) = 2 * st.1.capacity + 1 := by
      rw [wrap_of_lt (by omega)]; omega
    obtain ⟨st1, hg, hgrow, -, -⟩ := grow_if_short_grows st 1
      (2 * st.1.capacity + 1) hlen (by unfold BUFFER_MAX_CAPACITY; omega)
      (by intro _; omega) (by intro _; omega)
    unfold append_end
    rw [if_pos hs]
    simp only [hw, bind, Except.bind, hg, pure, Except.pure]
    exact ⟨_, rfl, hgrow.of_capacity rfl⟩
  · intro out s hnul hnl hwf2 hfit
    obtain ⟨r, h, -, -, -, -, hcap⟩ := append_ok out flags s hnul hnl hwf2 hfit
    exact ⟨r, h, hcap⟩

theorem growth_policy_witness :
    Buffer.WF ⟨2, 2, 0, [97, 10]⟩ ∧
    (∃ st2, append_copy (⟨2, 2, 0, [97, 10]⟩, []) [98, 10] 2 = .ok st2 ∧
      Grows (⟨2, 2, 0, [97, 10]⟩, []) st2 2 (2 * 2 + 2 + 1)) ∧
    ∃ st2, append_end ⟨1, 0, 1⟩ (⟨2, 2, 0, [97, 10]⟩, []) = .ok st2 ∧
      Grows (⟨2, 2, 0, [97, 10]⟩, []) st2 1 (2 * 2 + 1) :=
  ⟨by decide,
   (growth_policy ⟨1, 0, 1⟩ (⟨2, 2, 0, [97, 10]⟩, []) [98, 10] 2 (by decide)).2.1
     (by decide) (by decide),
   (growth_policy ⟨1, 0, 1⟩ (⟨2, 2, 0, [97, 10]⟩, []) [98, 10] 2 (by decide)).2.2.1
     rfl (by decide) (by decide) (by decide)⟩

/-- C18 (counterexample): with squeezing as the only flag, the sources "a",
blank line and blank line, "b", appended one after the other to the buffer of
`main`, give an output in which the two blank lines on either side of the
boundary are both kept: it holds three consecutive newlines. -/
theorem blank_run_across_sources_is_kept :
    (append_all ⟨0, 1, 0⟩ initial_buffer [[97, 10, 10], [10, 98, 10]]).map Buffer.text =
      .ok [97, 10, 10, 10, 98, 10] ∧
    [10, 10, 10] <:+: [97, 10, 10, 10, 98, 10] :=
  ⟨by decide!, [97], [98, 10], rfl⟩

/-- C18 (amended): with squeezing as the only flag, for every sequence of
sources without NUL byte in which every line ends with a newline, appended
one after another to a buffer, the text appended is the concatenation of the
squeezed sources, and the squeezed text of each source holds no run of two or
more consecutive blank lines: it does not start with two newlines and nowhere
holds three consecutive newlines.  Nothing is squeezed across the boundary
between two sources.  The buffer is well formed and three times the final
length is below `2 ^ 64`. -/
theorem squeeze_is_per_source (out : Buffer) (ss : List (List Nat))
    (hss : ∀ s ∈ ss, NulFree s ∧ NewlineTerminated s) (hwf : out.WF)
    (hfit : 3 * (out.length + ss.flatten.length) < 2 ^ 64) :
    (append_all ⟨0, 1, 0⟩ out ss).map Buffer.text =
      .ok (out.text ++ (ss.map squeezedSource).flatten) ∧
    ∀ s ∈ ss, NoBlankRun (squeezedSource s) := by
  obtain ⟨b, hb, hbt⟩ := append_all_squeeze ss out hss hwf hfit
  refine ⟨by rw [hb]; exact congrArg Except.ok hbt, ?_⟩
  intro s hs
  exact squeezedSource_no_blank_run s (hss s hs).1 (hss s hs).2

theorem squeeze_is_per_source_witness :
    (∀ s ∈ [[97, 10, 10, 10], [10, 10, 98, 10]], NulFree s ∧ NewlineTerminated s) ∧
    Buffer.WF ⟨1, 0, 0, [170]⟩ ∧
    3 * (0 + ([[97, 10, 10, 10], [10, 10, 98, 10]] : List (List Nat)).flatten.length) < 2 ^ 64 ∧
    ((append_all ⟨0, 1, 0⟩ ⟨1, 0, 0, [170]⟩ [[97, 10, 10, 10], [10, 10, 98, 10]]).map
        Buffer.text =
      .ok ([] ++ ([[97, 10, 10, 10], [10, 10, 98, 10]].map squeezedSource).flatten) ∧
    ∀ s ∈ [[97, 10, 10, 10], [10, 10, 98, 10]], NoBlankRun (squeezedSource s)) :=
  ⟨by decide, by decide, by decide,
   squeeze_is_per_source _ _ (by decide) (by decide) (by decide)⟩

/-- C19: appending only adds.  For every configuration and every source
without NUL byte in which every line ends with a newline, the append leaves
the bytes at offsets below the previous length as they were, the old text
being a prefix of the new one; neither the length nor the running line counter
decreases; and the length is unchanged only when the source is empty.  The
buffer is well formed and no `size_t` computation wraps. -/
theorem append_only_adds (out : Buffer) (flags : Flags) (s : List Nat)
    (hnul : NulFree s) (hnl : NewlineTerminated s) (hwf : out.WF) (hfit : NoWrap out flags s) :
    ∃ r, output_append_with_flags out flags s = .ok r ∧
      r.1.data.take out.length = out.data.take out.length ∧ out.text <+: r.1.text ∧
      out.length ≤ r.1.length ∧ out.line_count ≤ r.1.line_count ∧
      (r.1.length = out.length ↔ s = []) := by
  obtain ⟨r, h, -, ht, hl, hc, -⟩ := append_ok out flags s hnul hnl hwf hfit
  refine ⟨r, h, ?_, ⟨_, ht.symm⟩, by omega, by omega, ?_⟩
  · have hlen : out.text.length = out.length := by
      unfold Buffer.text
      rw [List.length_take, hwf.1]
      exact Nat.min_eq_left hwf.2
    have h1 : r.1.text.take out.length = out.text := by
      rw [ht, ← hlen, List.take_left]
    unfold Buffer.text at h1
    rw [List.take_take, Nat.min_eq_left (by omega)] at h1
    exact h1
  · rw [hl]
    constructor
    · intro h0
      have : (render flags out.line_count (keptLines flags s)).length = 0 := by omega
      rw [List.length_eq_zero, render_eq_nil, keptLines_eq_nil] at this
      exact this
    · rintro rfl
      have : keptLines flags [] = [] := (keptLines_eq_nil flags []).2 rfl
      rw [this]; rfl

theorem append_only_adds_witness :
    NulFree [10, 10, 97, 10] ∧ NewlineTerminated [10, 10, 97, 10] ∧
    Buffer.WF ⟨4, 2, 8, [120, 10, 170, 170]⟩ ∧
    NoWrap ⟨4, 2, 8, [120, 10, 170, 170]⟩ ⟨2, 1, 1⟩ [10, 10, 97, 10] ∧
    ∃ r, output_append_with_flags ⟨4, 2, 8, [120, 10, 170, 170]⟩ ⟨2, 1, 1⟩ [10, 10, 97, 10] =
        .ok r ∧
      r.1.data.take (⟨4, 2, 8, [120, 10, 170, 170]⟩ : Buffer).length =
        (⟨4, 2, 8, [120, 10, 170, 170]⟩ : Buffer).data.take
          (⟨4, 2, 8, [120, 10, 170, 170]⟩ : Buffer).length ∧
      (⟨4, 2, 8, [120, 10, 170, 170]⟩ : Buffer).text <+: r.1.text ∧
      (⟨4, 2, 8, [120, 10, 170, 170]⟩ : Buffer).length ≤ r.1.length ∧
      (⟨4, 2, 8, [120, 10, 170, 170]⟩ : Buffer).line_count ≤ r.1.line_count ∧
      (r.1.length = (⟨4, 2, 8, [120, 10, 170, 170]⟩ : Buffer).length ↔
        [10, 10, 97, 10] = []) :=
  ⟨by decide, by decide, by decide, by decide,
   append_only_adds _ _ _ (by decide) (by decide) (by decide) (by decide)⟩

/-- C20: the scan is total.  For every configuration and every source without
NUL byte in which every line ends with a newline, at every position where the
test of the loop is evaluated the position does not pass the terminator, and
where the test passes: the squeeze step, when it applies, advances by at
least one position, so that its back-up by one lands at or after the position
where the iteration started, on a newline; the search for the next newline
from there succeeds, the line length is at least 1 and the line ends inside
the source.  The loop ends without fault within as many iterations as the
source has lines, with the result of `output_append_with_flags`. -/
theorem scan_is_total (out : Buffer) (flags : Flags) (s : List Nat)
    (hnul : NulFree s) (hnl : NewlineTerminated s) :
    (∀ data, ScanPos flags s data →
      data ≤ s.length ∧
      (s.getD data 0 ≠ 0 →
        ((flags.squeeze_blank = SQUEEZE_BLANK_LINES ∧ s.getD data 0 = 10) →
          data + 1 ≤ skip_newlines (s.drop data) data ∧
          s.getD (skip_newlines (s.drop data) data - 1) 0 = 10) ∧
        data ≤ squeeze_step flags s data ∧
        ∃ line_end, strchr (s.drop (squeeze_step flags s data)) 10 = some line_end ∧
          1 ≤ line_end + 1 ∧ squeeze_step flags s data + (line_end + 1) ≤ s.length)) ∧
    ∃ st, scan flags s (splitLines s).length 0 (out, []) = .ok st ∧
      output_append_with_flags out flags s = .ok (poke st st.1.length [0]) := by
  have hls := splitLines_isLine s hnul hnl
  have hflat := flatten_splitLines s
  constructor
  · intro data hpos
    obtain ⟨pre, ls, hsrc, hdata, hls1⟩ :=
      scanPos_boundary flags s (splitLines s) hflat.symm hls data hpos
    subst hdata
    refine ⟨by rw [hsrc, List.length_append]; omega, ?_⟩
    intro hne
    rw [hsrc] at hne ⊢
    obtain ⟨j, c, ls2, hstep, hsplit, -, hfound, hsq⟩ := boundary_facts flags pre ls hls1 hne
    refine ⟨?_, by rw [hstep]; omega, c.length, by rw [hstep]; exact hfound, by omega, ?_⟩
    · intro hq
      obtain ⟨h1, h2⟩ := hsq hq
      rw [h1]
      exact ⟨by omega, by simpa using h2⟩
    · have := congrArg List.length hsplit
      simp only [List.length_append, List.length_replicate, List.length_singleton] at this
      rw [hstep, List.length_append, this]
      omega
  · obtain ⟨st, hst⟩ := scan_total flags (splitLines s).length [] (splitLines s) (out, []) hls
      (Nat.le_refl _)
    rw [List.nil_append, hflat] at hst
    simp only [List.length_nil] at hst
    refine ⟨st, hst, ?_⟩
    have hle := length_le_flatten (splitLines s) hls
    rw [hflat] at hle
    obtain ⟨k, hk⟩ := Nat.exists_eq_add_of_le hle
    have hmono := scan_mono flags s (splitLines s).length k 0 (out, []) st hst
    rw [← hk] at hmono
    unfold output_append_with_flags
    rw [hmono]

theorem scan_is_total_witness :
    NulFree [10, 10, 97, 10, 10, 10, 98, 10] ∧
    NewlineTerminated [10, 10, 97, 10, 10, 10, 98, 10] ∧
    ∃ st, scan ⟨0, 1, 0⟩ [10, 10, 97, 10, 10, 10, 98, 10]
        (splitLines [10, 10, 97, 10, 10, 10, 98, 10]).length 0 (initial_buffer, []) = .ok st ∧
      output_append_with_flags initial_buffer ⟨0, 1, 0⟩ [10, 10, 97, 10, 10, 10, 98, 10] =
        .ok (poke st st.1.length [0]) :=
  ⟨by decide, by decide,
   (scan_is_total initial_buffer ⟨0, 1, 0⟩ [10, 10, 97, 10, 10, 10, 98, 10]
     (by decide) (by decide)).2⟩

end CatClone
